import Mathlib

/-!
Verification of the beartype DOOR type-hint wrapper hierarchy
(`beartype/door/_doorcls.py`): a shallow embedding of the `TypeHint`
class family (construction, equality, and the subhint partial order)
together with proofs about the properties claimed of it.

The embedding mirrors the source:
* `Cls` / `issub` model the universe of runtime classes and `issubclass`.
* `Val` / `valEq` model literal values and Python `==` on them.
* `MetaObj` / `metaEq` model `typing.Annotated` metadata objects, whose
  user-defined equality may raise (modelled as `Except Unit Bool`).
* `TypeHint` is the descriptor datatype, one constructor per concrete
  subclass of the Python `TypeHint` ABC.
* `teq` models `TypeHint.__eq__`, `sub` models `TypeHint.is_subhint`
  restricted to descriptor operands, `leBranch` models `_is_le_branch`.
* `RawHint` / `wrap` model raw annotations and the `TypeHint.__new__` /
  `__init__` construction pipeline, with errors as `Except`.
-/

namespace Door

/-- Signs (classification tags) from the decomposition service, as used by
`HINT_SIGN_TO_TYPEHINT` and `_hint_sign`. -/
inductive Sign where
  | sAny
  | sList
  | sSet
  | sDict
  | sGenerator
  | sTuple
  | sCallable
  | sLiteral
  | sAnnotated
  | sUnion
deriving DecidableEq

/-- Runtime classes (the universe over which `issubclass` and `isinstance`
are evaluated).  `special s` stands for a bare typing special form used as
an origin object (e.g. `typing.Literal` as the origin of `Literal[...]`). -/
inductive Cls where
  | obj
  | intC
  | boolC
  | strC
  | noneC
  | floatC
  | listC
  | setC
  | dictC
  | tupleC
  | callableC
  | base
  | derived
  | special (s : Sign)
deriving DecidableEq

/-- `issubclass` on the modelled class universe: reflexive; every real class
subclasses `object`; `bool` subclasses `int`; `derived` subclasses `base`. -/
def issub (a b : Cls) : Bool :=
  a == b ||
    match a, b with
    | .special _, _ => false
    | _, .obj => true
    | .boolC, .intC => true
    | .derived, .base => true
    | _, _ => false

/-- `_origin` values: a class, or the `typing.Any` object (for descriptors
whose origin defaults to the raw `Any` hint itself). -/
inductive Origin where
  | ocls (c : Cls)
  | oany
deriving DecidableEq

/-- `issubclass` lifted to origin values. -/
def issubO : Origin → Origin → Bool
  | .ocls a, .ocls b => issub a b
  | .oany, .oany => true
  | _, _ => false

/-- Literal values (`typing.Literal` parameters). -/
inductive Val where
  | vint (n : Int)
  | vbool (b : Bool)
  | vstr (s : String)
  | vnone
deriving DecidableEq

/-- Python `==` on literal values (`bool` compares equal to `int`). -/
def valEq : Val → Val → Bool
  | .vint n, .vint m => n == m
  | .vbool x, .vbool y => x == y
  | .vstr s, .vstr t => s == t
  | .vnone, .vnone => true
  | .vint n, .vbool b => n == (if b then (1 : Int) else 0)
  | .vbool b, .vint n => (if b then (1 : Int) else 0) == n
  | _, _ => false

/-- `type(v)` for a literal value. -/
def typeOfVal : Val → Cls
  | .vint _ => .intC
  | .vbool _ => .boolC
  | .vstr _ => .strC
  | .vnone => .noneC

/-- `isinstance(v, origin)`. -/
def isinst (v : Val) : Origin → Bool
  | .ocls c => issub (typeOfVal v) c
  | .oany => true

/-- Metadata objects annotating `typing.Annotated[...]` hints.  `mraising`
models an object whose user-defined `__eq__` raises an exception. -/
inductive MetaObj where
  | mval (v : Val)
  | mraising (k : Nat)
deriving DecidableEq

/-- User-defined `==` on metadata objects; raising equality is modelled as
`Except.error`. -/
def metaEq : MetaObj → MetaObj → Except Unit Bool
  | .mval a, .mval b => .ok (valEq a b)
  | .mraising _, _ => .error ()
  | _, .mraising _ => .error ()

/-- Element comparison inside a tuple `==`: CPython short-circuits on
object identity before invoking `__eq__`. -/
def metaElemEq (a b : MetaObj) : Except Unit Bool :=
  if a == b then .ok true else metaEq a b

/-- Python tuple `==` over metadata sequences, propagating raised
comparison exceptions. -/
def listMetaEq : List MetaObj → List MetaObj → Except Unit Bool
  | [], [] => .ok true
  | a :: xs, b :: ys => do
    let e ← metaElemEq a b
    if e then listMetaEq xs ys else .ok false
  | _, _ => .ok false

/-- Collapse a possibly-raising comparison to a `Bool`, treating a raised
exception as `false` (the `with suppress(Exception)` idiom). -/
def exceptFalse : Except Unit Bool → Bool
  | .ok b => b
  | .error _ => false

/-- Descriptor datatype: one constructor per concrete subclass of the
Python `TypeHint` ABC.

* `cls origin sign` — `_TypeHintClass` (a plain class, `Any`, or a
  degenerate argument-less subscriptable hint); `sign` is `_hint_sign`.
* `subscripted sign origin args` — `_TypeHintOriginIsinstanceableArgsN`.
* `tup args variadic empty` — `_TypeHintTuple` with its two flags.
* `callable params ret takesAny` — `_TypeHintCallable` (params are
  `arg_types`, `ret` is `return_type`, `takesAny` is `_takes_any_args`).
* `lit vals` — `_TypeHintLiteral` (raw values kept directly, unwrapped).
* `annotated metahint metadata` — `_TypeHintAnnotated`.
* `union args` — `_TypeHintUnion`. -/
inductive TypeHint where
  | cls (origin : Origin) (sign : Option Sign)
  | subscripted (sign : Sign) (origin : Cls) (args : List TypeHint)
  | tup (args : List TypeHint) (variadic : Bool) (empty : Bool)
  | callable (params : List TypeHint) (ret : TypeHint) (takesAny : Bool)
  | lit (vals : List Val)
  | annotated (metahint : TypeHint) (metadata : List MetaObj)
  | union (args : List TypeHint)

/-- `_origin` of a descriptor. -/
def originOf : TypeHint → Origin
  | .cls o _ => o
  | .subscripted _ c _ => .ocls c
  | .tup _ _ _ => .ocls .tupleC
  | .callable _ _ _ => .ocls .callableC
  | .lit _ => .ocls (.special .sLiteral)
  | .annotated _ _ => .ocls (.special .sAnnotated)
  | .union _ => .ocls (.special .sUnion)

/-- `_hint_sign` of a descriptor. -/
def signOfDesc : TypeHint → Option Sign
  | .cls _ sg => sg
  | .subscripted s _ _ => some s
  | .tup _ _ _ => some .sTuple
  | .callable _ _ _ => some .sCallable
  | .lit _ => some .sLiteral
  | .annotated _ _ => some .sAnnotated
  | .union _ => some .sUnion

/-- `_args_wrapped` of a descriptor.  `_TypeHintLiteral` overrides
`_wrap_children` to wrap nothing; for `Annotated[...]` the low-level
`__args__` holds exactly the metahint. -/
def argsWrapped : TypeHint → List TypeHint
  | .cls _ _ => []
  | .subscripted _ _ args => args
  | .tup args _ _ => args
  | .callable ps r _ => ps ++ [r]
  | .lit _ => []
  | .annotated m _ => [m]
  | .union args => args

/-- True iff the descriptor wraps exactly the raw `typing.Any` hint
(i.e. `self._hint is Any`, equivalently `self._origin is Any` for the
class variant). -/
def isAnyDesc : TypeHint → Bool
  | .cls .oany _ => true
  | _ => false

/-- `_is_just_an_origin`, with each subclass override. -/
def isJustOrigin : TypeHint → Bool
  | .cls _ _ => true
  | .subscripted _ _ args => args.all fun a => originOf a == .oany
  | .tup args v _ =>
    v && (match args with
          | a :: _ => isAnyDesc a
          | [] => false)
  | .callable _ r ta => ta && isAnyDesc r
  | .lit _ => false
  | .annotated _ _ => false
  | .union args => args.all fun a => originOf a == .oany

/-- `_branches`: a union exposes its children, every other descriptor
exposes itself. -/
def branches : TypeHint → List TypeHint
  | .union args => args
  | d => [d]

/-- `_TypeHintClass._is_le_branch` as a function of the origin (also the
body of `TypeHint(type(arg)) <= other` checks for literal values, since a
bare class always wraps to `_TypeHintClass`). -/
def clsLeBranch (o : Origin) (br : TypeHint) : Bool :=
  if originOf br == .oany then true
  else isJustOrigin br && issubO o (originOf br)

/-- `_required_nargs` of the `_TypeHintOriginIsinstanceableArgsN` variant
handling a sign, used to model `isinstance(branch, type(self))`: two
subscripted descriptors share their concrete class exactly when their
signs map to the same ArgsN variant. -/
def aritySign : Sign → Nat
  | .sList => 1
  | .sSet => 1
  | .sDict => 2
  | .sGenerator => 3
  | _ => 0

mutual

/-- Computable size of a descriptor, used as the fuel bound for the
fuel-indexed evaluators below. -/
def tsize : TypeHint → Nat
  | .cls _ _ => 1
  | .subscripted _ _ args => 1 + tsizeList args
  | .tup args _ _ => 1 + tsizeList args
  | .callable ps r _ => 1 + tsizeList ps + tsize r
  | .lit _ => 1
  | .annotated m _ => 1 + tsize m
  | .union args => 1 + tsizeList args

/-- Computable size of a descriptor list. -/
def tsizeList : List TypeHint → Nat
  | [] => 0
  | x :: xs => 1 + tsize x + tsizeList xs

end

theorem tsize_pos (d : TypeHint) : 1 ≤ tsize d := by
  cases d <;> simp only [tsize] <;> omega

theorem tsizeList_of_mem {x : TypeHint} {xs : List TypeHint}
    (h : x ∈ xs) : 1 + tsize x ≤ tsizeList xs := by
  induction xs with
  | nil => cases h
  | cons y ys ih =>
    rcases List.mem_cons.mp h with rfl | h2
    · simp only [tsizeList]; omega
    · have := ih h2
      simp only [tsizeList]; omega

theorem tsizeList_append (xs ys : List TypeHint) :
    tsizeList (xs ++ ys) = tsizeList xs + tsizeList ys := by
  induction xs with
  | nil => simp [tsizeList]
  | cons x xs ih =>
    simp only [List.cons_append, tsizeList, List.append_eq]
    rw [ih]; omega

theorem tsize_lt_of_mem_argsWrapped {x d : TypeHint}
    (h : x ∈ argsWrapped d) : tsize x < tsize d := by
  cases d with
  | cls o sg => simp [argsWrapped] at h
  | subscripted s c args =>
    simp only [argsWrapped] at h
    have h2 := tsizeList_of_mem h
    simp only [tsize]; omega
  | tup args v e =>
    simp only [argsWrapped] at h
    have h2 := tsizeList_of_mem h
    simp only [tsize]; omega
  | callable ps r ta =>
    simp only [argsWrapped] at h
    rcases List.mem_append.mp h with h2 | h2
    · have h3 := tsizeList_of_mem h2
      simp only [tsize]; omega
    · have h3 : x = r := by simpa using h2
      subst h3
      simp only [tsize]; omega
  | lit vals => simp [argsWrapped] at h
  | annotated m md =>
    simp only [argsWrapped] at h
    have h3 : x = m := by simpa using h
    subst h3
    simp only [tsize]; omega
  | union args =>
    simp only [argsWrapped] at h
    have h2 := tsizeList_of_mem h
    simp only [tsize]; omega

theorem tsize_le_of_mem_branches {br d : TypeHint}
    (h : br ∈ branches d) : tsize br ≤ tsize d := by
  cases d with
  | union args =>
    simp only [branches] at h
    have h2 := tsizeList_of_mem h
    simp only [tsize]; omega
  | cls o sg => simp only [branches, List.mem_singleton] at h; subst h; omega
  | subscripted s c args =>
    simp only [branches, List.mem_singleton] at h; subst h; omega
  | tup args v e =>
    simp only [branches, List.mem_singleton] at h; subst h; omega
  | callable ps r ta =>
    simp only [branches, List.mem_singleton] at h; subst h; omega
  | lit vals => simp only [branches, List.mem_singleton] at h; subst h; omega
  | annotated m md =>
    simp only [branches, List.mem_singleton] at h; subst h; omega

theorem list_all_congr {α : Type} {l : List α} {f g : α → Bool}
    (h : ∀ x ∈ l, f x = g x) : l.all f = l.all g := by
  induction l with
  | nil => rfl
  | cons x xs ih =>
    simp only [List.all_cons]
    rw [h x (List.mem_cons_self x xs),
      ih fun y hy => h y (List.mem_cons_of_mem x hy)]

theorem list_any_congr {α : Type} {l : List α} {f g : α → Bool}
    (h : ∀ x ∈ l, f x = g x) : l.any f = l.any g := by
  induction l with
  | nil => rfl
  | cons x xs ih =>
    simp only [List.any_cons]
    rw [h x (List.mem_cons_self x xs),
      ih fun y hy => h y (List.mem_cons_of_mem x hy)]

/-- Fuel-bounded evaluator for `TypeHint.__eq__` (see `teq`).  The fuel is
only a termination device: `teqF_congr` shows the result is independent of
the fuel once it dominates the recursion depth. -/
def teqF : Nat → TypeHint → TypeHint → Bool
  | 0, _, _ => false
  | n + 1, a, b =>
    match a with
    | .annotated m md =>
      (match b with
       | .annotated m2 md2 => teqF n m m2 && exceptFalse (listMetaEq md md2)
       | _ => false)
    | x =>
      if isJustOrigin x && isJustOrigin b then originOf x == originOf b
      else
        signOfDesc x == signOfDesc b &&
        (argsWrapped x).length == (argsWrapped b).length &&
        ((argsWrapped x).zip (argsWrapped b)).all fun p => teqF n p.1 p.2

/-- Fuel sufficient to fully evaluate `teqF`. -/
def teqFuel (a b : TypeHint) : Nat := tsize a + tsize b + 1

/-- `TypeHint.__eq__` (with the `_TypeHintAnnotated.__eq__` override),
restricted to descriptor operands.  Two descriptors are equal iff both are
just-an-origin with equal origins, or they share their sign and their
wrapped children are pairwise equal; annotated descriptors compare their
metahint and metadata instead. -/
def teq (a b : TypeHint) : Bool := teqF (teqFuel a b) a b

theorem teqF_congr :
    ∀ k n m a b, n + m ≤ k → teqFuel a b ≤ n → teqFuel a b ≤ m →
      teqF n a b = teqF m a b := by
  intro k
  induction k with
  | zero =>
    intro n m a b hk hn hm
    simp only [teqFuel] at hn
    omega
  | succ k ih =>
    intro n m a b hk hn hm
    have hn1 : 1 ≤ n := le_trans (by simp only [teqFuel]; omega) hn
    have hm1 : 1 ≤ m := le_trans (by simp only [teqFuel]; omega) hm
    obtain ⟨n2, rfl⟩ : ∃ n2, n = n2 + 1 := ⟨n - 1, by omega⟩
    obtain ⟨m2, rfl⟩ : ∃ m2, m = m2 + 1 := ⟨m - 1, by omega⟩
    simp only [teqFuel] at hn hm
    have hgen : ∀ x : TypeHint, x = a →
        ((argsWrapped a).zip (argsWrapped b)).all (fun p => teqF n2 p.1 p.2) =
        ((argsWrapped a).zip (argsWrapped b)).all (fun p => teqF m2 p.1 p.2) := by
      intro x hx
      refine list_all_congr fun p hp => ?_
      have h1 := tsize_lt_of_mem_argsWrapped (List.of_mem_zip hp).1
      have h2 := tsize_lt_of_mem_argsWrapped (List.of_mem_zip hp).2
      exact ih n2 m2 p.1 p.2 (by omega) (by simp only [teqFuel]; omega)
        (by simp only [teqFuel]; omega)
    cases a with
    | annotated mh md =>
      cases b with
      | annotated mh2 md2 =>
        simp only [teqF]
        have hs1 : tsize (TypeHint.annotated mh md) = 1 + tsize mh := by
          simp [tsize]
        have hs2 : tsize (TypeHint.annotated mh2 md2) = 1 + tsize mh2 := by
          simp [tsize]
        rw [ih n2 m2 mh mh2 (by omega) (by simp only [teqFuel]; omega)
          (by simp only [teqFuel]; omega)]
      | cls o sg => simp only [teqF]
      | subscripted s c args => simp only [teqF]
      | tup args v e => simp only [teqF]
      | callable ps r ta => simp only [teqF]
      | lit vals => simp only [teqF]
      | union args => simp only [teqF]
    | cls o sg => simp only [teqF]; rw [hgen _ rfl]
    | subscripted s c args => simp only [teqF]; rw [hgen _ rfl]
    | tup args v e => simp only [teqF]; rw [hgen _ rfl]
    | callable ps r ta => simp only [teqF]; rw [hgen _ rfl]
    | lit vals => simp only [teqF]; rw [hgen _ rfl]
    | union args => simp only [teqF]; rw [hgen _ rfl]

theorem teqF_eq_teq {n : Nat} {a b : TypeHint} (h : teqFuel a b ≤ n) :
    teqF n a b = teq a b :=
  teqF_congr (n + teqFuel a b) n (teqFuel a b) a b (by omega) h (by omega)


/-- True iff the descriptor is a union variant. -/
def isUnionB : TypeHint → Bool
  | .union _ => true
  | _ => false

/-- True iff the descriptor is a literal variant. -/
def isLitB : TypeHint → Bool
  | .lit _ => true
  | _ => false

mutual

/-- Fuel-bounded evaluator for `TypeHint.is_subhint` (see `sub`).  The
fuel is only a termination device: `subF_congr` shows the result is
independent of the fuel once it dominates the recursion depth. -/
def subF : Nat → TypeHint → TypeHint → Bool
  | 0, _, _ => false
  | n + 1, self, other =>
    match self with
    | .union args =>
      (match other with
       | .union oargs => args.all fun b => oargs.any fun ob => subF n b ob
       | o2 => isAnyDesc o2)
    | .lit vals =>
      (match other with
       | .lit ovals => vals.all fun v => ovals.any fun w => valEq v w
       | o2 =>
         if isJustOrigin o2 then vals.all fun v => isinst v (originOf o2)
         else
           vals.all fun v =>
             (branches o2).any fun br => clsLeBranch (.ocls (typeOfVal v)) br)
    | x => (branches other).any fun br => leBranchF n x br

/-- Fuel-bounded evaluator for `_is_le_branch` (see `leBranch`). -/
def leBranchF : Nat → TypeHint → TypeHint → Bool
  | 0, _, _ => false
  | n + 1, self, br =>
    match self with
    | .cls o _ => clsLeBranch o br
    | .subscripted s c args =>
      if isJustOrigin br then issubO (.ocls c) (originOf br)
      else
        (match br with
         | .subscripted s2 c2 args2 =>
           aritySign s == aritySign s2 && issub c c2 &&
           ((args.zip args2).all fun p => subF n p.1 p.2)
         | _ => false)
    | .tup args v e =>
      if isJustOrigin br then issubO (.ocls .tupleC) (originOf br)
      else
        (match br with
         | .tup bargs bv be =>
           if isJustOrigin (.tup args v e) then false
           else if be then e
           else if bv then
             (match bargs with
              | bt :: _ =>
                if v then
                  (match args with
                   | st :: _ => subF n bt st
                   | [] => false)
                else args.all fun c2 => subF n c2 bt
              | [] => false)
           else if v then
             -- `branch.is_variable_length and self[0] <= branch[0]` with
             -- `branch.is_variable_length` known false at this point
             false
           else if args.length != bargs.length then false
           else (args.zip bargs).all fun p => subF n p.1 p.2
         | _ => false)
    | .callable ps r ta =>
      if isJustOrigin br then issubO (.ocls .callableC) (originOf br)
      else
        (match br with
         | .callable bps brret bta =>
           if !issub .callableC .callableC then false
           else if !bta &&
               (ta || ps.length != bps.length ||
                 ((ps.zip bps).any fun p => subF n p.2 p.1 && !teq p.1 p.2))
             then false
           else if !isAnyDesc brret then
             (if isAnyDesc r then false else subF n r brret)
           else true
         | _ => false)
    | .lit vals =>
      if isJustOrigin br then issubO (originOf (.lit vals)) (originOf br)
      else
        (match br with
         | .lit _ => issubO (originOf (.lit vals)) (originOf br)
         | _ => false)
    | .annotated m md =>
      (match br with
       | .annotated bm bmd =>
         if (subF n bm m && !teq m bm) || md.length != bmd.length then false
         else exceptFalse (listMetaEq md bmd)
       | b2 => subF n m b2)
    | .union _ => false

end

/-- Fuel sufficient to fully evaluate `subF`. -/
def subFuel (s o : TypeHint) : Nat := 3 * (tsize s + tsize o) + 2

/-- Fuel sufficient to fully evaluate `leBranchF`. -/
def leBranchFuel (s b : TypeHint) : Nat := 3 * (tsize s + tsize b) + 1

/-- `TypeHint.is_subhint` restricted to descriptor operands, including the
`_TypeHintUnion.is_subhint` and `_TypeHintLiteral.is_subhint` overrides.
The generic implementation is
`any(self._is_le_branch(branch) for branch in other._branches)`; in the
literal override, `TypeHint(type(arg)) <= other` wraps a bare class, whose
generic `is_subhint` is exactly `any(clsLeBranch ...)` over the branches
of `other`. -/
def sub (s o : TypeHint) : Bool := subF (subFuel s o) s o

/-- `_is_le_branch`, with each subclass override (see `leBranchF`):
`_TypeHintUnion._is_le_branch` raises `NotImplementedError` and is never
invoked (union `is_subhint` is overridden); it is modelled inertly as
`false`. -/
def leBranch (s b : TypeHint) : Bool := leBranchF (leBranchFuel s b) s b


theorem tsize_union_eq (args : List TypeHint) :
    tsize (TypeHint.union args) = 1 + tsizeList args := by simp [tsize]

theorem tsize_subscripted_eq (s : Sign) (c : Cls) (args : List TypeHint) :
    tsize (TypeHint.subscripted s c args) = 1 + tsizeList args := by
  simp [tsize]

theorem tsize_tup_eq (args : List TypeHint) (v e : Bool) :
    tsize (TypeHint.tup args v e) = 1 + tsizeList args := by simp [tsize]

theorem tsize_callable_eq (ps : List TypeHint) (r : TypeHint) (ta : Bool) :
    tsize (TypeHint.callable ps r ta) = 1 + tsizeList ps + tsize r := by
  simp [tsize]

theorem tsize_annotated_eq (m : TypeHint) (md : List MetaObj) :
    tsize (TypeHint.annotated m md) = 1 + tsize m := by simp [tsize]

theorem subF_leBranchF_congr :
    ∀ k,
      (∀ n m s o, n + m ≤ k → subFuel s o ≤ n → subFuel s o ≤ m →
        subF n s o = subF m s o) ∧
      (∀ n m s b, n + m ≤ k → leBranchFuel s b ≤ n → leBranchFuel s b ≤ m →
        leBranchF n s b = leBranchF m s b) := by
  intro k
  induction k with
  | zero =>
    refine ⟨fun n m s o hk hn hm => ?_, fun n m s b hk hn hm => ?_⟩
    · simp only [subFuel] at hn; omega
    · simp only [leBranchFuel] at hn; omega
  | succ k ih =>
    obtain ⟨ihs, ihl⟩ := ih
    refine ⟨fun n m s o hk hn hm => ?_, fun n m s b hk hn hm => ?_⟩
    · have hn1 : 1 ≤ n := le_trans (by simp only [subFuel]; omega) hn
      have hm1 : 1 ≤ m := le_trans (by simp only [subFuel]; omega) hm
      obtain ⟨n2, rfl⟩ : ∃ n2, n = n2 + 1 := ⟨n - 1, by omega⟩
      obtain ⟨m2, rfl⟩ : ∃ m2, m = m2 + 1 := ⟨m - 1, by omega⟩
      simp only [subFuel] at hn hm
      have hgeneric :
          ∀ x : TypeHint, tsize x = tsize s →
            ((branches o).any fun br => leBranchF n2 x br) =
            ((branches o).any fun br => leBranchF m2 x br) := by
        intro x hx
        refine list_any_congr fun br hbr => ?_
        have h1 := tsize_le_of_mem_branches hbr
        exact ihl n2 m2 x br (by omega) (by simp only [leBranchFuel]; omega)
          (by simp only [leBranchFuel]; omega)
      cases s with
      | union args =>
        cases o with
        | union oargs =>
          simp only [subF]
          refine list_all_congr fun b2 hb => ?_
          refine list_any_congr fun ob hob => ?_
          have h1 := tsizeList_of_mem hb
          have h2 := tsizeList_of_mem hob
          have h3 := tsize_union_eq args
          have h4 := tsize_union_eq oargs
          exact ihs n2 m2 b2 ob (by omega) (by simp only [subFuel]; omega)
            (by simp only [subFuel]; omega)
        | cls o2 sg => simp only [subF]
        | subscripted s2 c2 args2 => simp only [subF]
        | tup bargs bv be => simp only [subF]
        | callable bps brret bta => simp only [subF]
        | lit ovals => simp only [subF]
        | annotated bm bmd => simp only [subF]
      | lit vals => simp only [subF]
      | cls o2 sg => simp only [subF]; exact hgeneric _ rfl
      | subscripted s2 c2 args2 => simp only [subF]; exact hgeneric _ rfl
      | tup args v e => simp only [subF]; exact hgeneric _ rfl
      | callable ps r ta => simp only [subF]; exact hgeneric _ rfl
      | annotated mh md => simp only [subF]; exact hgeneric _ rfl
    · have hn1 : 1 ≤ n := le_trans (by simp only [leBranchFuel]; omega) hn
      have hm1 : 1 ≤ m := le_trans (by simp only [leBranchFuel]; omega) hm
      obtain ⟨n2, rfl⟩ : ∃ n2, n = n2 + 1 := ⟨n - 1, by omega⟩
      obtain ⟨m2, rfl⟩ : ∃ m2, m = m2 + 1 := ⟨m - 1, by omega⟩
      simp only [leBranchFuel] at hn hm
      cases s with
      | cls o2 sg => simp only [leBranchF]
      | lit vals => simp only [leBranchF]
      | union args => simp only [leBranchF]
      | subscripted s2 c2 args2 =>
        cases b with
        | subscripted s3 c3 args3 =>
          simp only [leBranchF]
          have hz :
              ((args2.zip args3).all fun p => subF n2 p.1 p.2) =
              ((args2.zip args3).all fun p => subF m2 p.1 p.2) := by
            refine list_all_congr fun p hp => ?_
            have h1 := tsizeList_of_mem (List.of_mem_zip hp).1
            have h2 := tsizeList_of_mem (List.of_mem_zip hp).2
            have h3 := tsize_subscripted_eq s2 c2 args2
            have h4 := tsize_subscripted_eq s3 c3 args3
            exact ihs n2 m2 p.1 p.2 (by omega) (by simp only [subFuel]; omega)
              (by simp only [subFuel]; omega)
          rw [hz]
        | cls o3 sg3 => simp only [leBranchF]
        | tup bargs bv be => simp only [leBranchF]
        | callable bps brret bta => simp only [leBranchF]
        | lit ovals => simp only [leBranchF]
        | annotated bm bmd => simp only [leBranchF]
        | union oargs => simp only [leBranchF]
      | tup args v e =>
        cases b with
        | tup bargs bv be =>
          have h3 := tsize_tup_eq args v e
          have h4 := tsize_tup_eq bargs bv be
          simp only [leBranchF]
          rcases bargs with _ | ⟨bt, brest⟩
          · simp only []
            have hz :
                ((args.zip ([] : List TypeHint)).all fun p => subF n2 p.1 p.2) =
                ((args.zip ([] : List TypeHint)).all fun p => subF m2 p.1 p.2) := by
              refine list_all_congr fun p hp => ?_
              exact absurd hp (by simp)
            rw [hz]
          · have hbt : 1 + tsize bt ≤ tsizeList (bt :: brest) := by
              simp only [tsizeList]; omega
            have hz3 :
                ((args.zip (bt :: brest)).all fun p => subF n2 p.1 p.2) =
                ((args.zip (bt :: brest)).all fun p => subF m2 p.1 p.2) := by
              refine list_all_congr fun p hp => ?_
              have h1 := tsizeList_of_mem (List.of_mem_zip hp).1
              have h2 := tsizeList_of_mem (List.of_mem_zip hp).2
              exact ihs n2 m2 p.1 p.2 (by omega) (by simp only [subFuel]; omega)
                (by simp only [subFuel]; omega)
            have hz2 :
                (args.all fun c2 => subF n2 c2 bt) =
                (args.all fun c2 => subF m2 c2 bt) := by
              refine list_all_congr fun c2 hc => ?_
              have h1 := tsizeList_of_mem hc
              exact ihs n2 m2 c2 bt (by omega) (by simp only [subFuel]; omega)
                (by simp only [subFuel]; omega)
            rcases args with _ | ⟨st, srest⟩
            · simp only []
              rw [hz2, hz3]
            · have hst : 1 + tsize st ≤ tsizeList (st :: srest) := by
                simp only [tsizeList]; omega
              have hz1 : subF n2 bt st = subF m2 bt st :=
                ihs n2 m2 bt st (by omega) (by simp only [subFuel]; omega)
                  (by simp only [subFuel]; omega)
              simp only []
              rw [hz1, hz2, hz3]
        | cls o3 sg3 => simp only [leBranchF]
        | subscripted s3 c3 args3 => simp only [leBranchF]
        | callable bps brret bta => simp only [leBranchF]
        | lit ovals => simp only [leBranchF]
        | annotated bm bmd => simp only [leBranchF]
        | union oargs => simp only [leBranchF]
      | callable ps r ta =>
        cases b with
        | callable bps brret bta =>
          have h3 := tsize_callable_eq ps r ta
          have h4 := tsize_callable_eq bps brret bta
          simp only [leBranchF]
          have hz1 :
              ((ps.zip bps).any fun p => subF n2 p.2 p.1 && !teq p.1 p.2) =
              ((ps.zip bps).any fun p => subF m2 p.2 p.1 && !teq p.1 p.2) := by
            refine list_any_congr fun p hp => ?_
            have h1 := tsizeList_of_mem (List.of_mem_zip hp).1
            have h2 := tsizeList_of_mem (List.of_mem_zip hp).2
            rw [ihs n2 m2 p.2 p.1 (by omega) (by simp only [subFuel]; omega)
              (by simp only [subFuel]; omega)]
          have hz2 : subF n2 r brret = subF m2 r brret :=
            ihs n2 m2 r brret (by omega) (by simp only [subFuel]; omega)
              (by simp only [subFuel]; omega)
          rw [hz1, hz2]
        | cls o3 sg3 => simp only [leBranchF]
        | subscripted s3 c3 args3 => simp only [leBranchF]
        | tup bargs bv be => simp only [leBranchF]
        | lit ovals => simp only [leBranchF]
        | annotated bm bmd => simp only [leBranchF]
        | union oargs => simp only [leBranchF]
      | annotated mh md =>
        have h3 := tsize_annotated_eq mh md
        cases b with
        | annotated bm bmd =>
          have h4 := tsize_annotated_eq bm bmd
          simp only [leBranchF]
          have hz : subF n2 bm mh = subF m2 bm mh :=
            ihs n2 m2 bm mh (by omega) (by simp only [subFuel]; omega)
              (by simp only [subFuel]; omega)
          rw [hz]
        | cls o3 sg3 =>
          simp only [leBranchF]
          exact ihs n2 m2 mh _ (by omega) (by simp only [subFuel]; omega)
            (by simp only [subFuel]; omega)
        | subscripted s3 c3 args3 =>
          simp only [leBranchF]
          exact ihs n2 m2 mh _ (by omega) (by simp only [subFuel]; omega)
            (by simp only [subFuel]; omega)
        | tup bargs bv be =>
          simp only [leBranchF]
          exact ihs n2 m2 mh _ (by omega) (by simp only [subFuel]; omega)
            (by simp only [subFuel]; omega)
        | callable bps brret bta =>
          simp only [leBranchF]
          exact ihs n2 m2 mh _ (by omega) (by simp only [subFuel]; omega)
            (by simp only [subFuel]; omega)
        | lit ovals =>
          simp only [leBranchF]
          exact ihs n2 m2 mh _ (by omega) (by simp only [subFuel]; omega)
            (by simp only [subFuel]; omega)
        | union oargs =>
          simp only [leBranchF]
          exact ihs n2 m2 mh _ (by omega) (by simp only [subFuel]; omega)
            (by simp only [subFuel]; omega)

theorem subF_eq_sub {n : Nat} {s o : TypeHint} (h : subFuel s o ≤ n) :
    subF n s o = sub s o :=
  (subF_leBranchF_congr (n + subFuel s o)).1 n (subFuel s o) s o
    (by omega) h (by omega)

theorem leBranchF_eq_leBranch {n : Nat} {s b : TypeHint}
    (h : leBranchFuel s b ≤ n) : leBranchF n s b = leBranch s b :=
  (subF_leBranchF_congr (n + leBranchFuel s b)).2 n (leBranchFuel s b) s b
    (by omega) h (by omega)


theorem sub_unfold1 (s o : TypeHint) :
    sub s o = subF ((tsize s + tsize o) * 4 + 1) s o := by
  refine (subF_eq_sub ?_).symm
  have hp1 := tsize_pos s
  have hp2 := tsize_pos o
  simp only [subFuel]
  omega

theorem leBranch_unfold1 (s b : TypeHint) :
    leBranch s b = leBranchF ((tsize s + tsize b) * 4 + 1) s b := by
  refine (leBranchF_eq_leBranch ?_).symm
  simp only [leBranchFuel]
  omega

/-- Union-vs-union subhinting: every branch of the union must be a
subhint of some branch of the other union. -/
theorem sub_union_union (args oargs : List TypeHint) :
    sub (.union args) (.union oargs) =
      (args.all fun b => oargs.any fun ob => sub b ob) := by
  rw [sub_unfold1]
  simp only [subF]
  refine list_all_congr fun b hb => ?_
  refine list_any_congr fun ob hob => ?_
  have h1 := tsizeList_of_mem hb
  have h2 := tsizeList_of_mem hob
  have h3 := tsize_union_eq args
  have h4 := tsize_union_eq oargs
  refine subF_eq_sub ?_
  simp only [subFuel]
  omega

/-- Union-vs-non-union subhinting: true exactly when the other hint is
the raw `typing.Any` hint. -/
theorem sub_union_not_union (args : List TypeHint) (o : TypeHint)
    (h : isUnionB o = false) : sub (.union args) o = isAnyDesc o := by
  cases o with
  | union oargs => simp [isUnionB] at h
  | cls o2 sg => rfl
  | subscripted s2 c2 args2 => rfl
  | tup bargs bv be => rfl
  | callable bps brret bta => rfl
  | lit ovals => rfl
  | annotated bm bmd => rfl

/-- Literal-vs-literal subhinting: value-set containment via Python `==`
membership. -/
theorem sub_lit_lit (vals ovals : List Val) :
    sub (.lit vals) (.lit ovals) =
      (vals.all fun v => ovals.any fun w => valEq v w) := rfl

/-- Literal-vs-non-literal subhinting: instance checks against a
just-an-origin hint, otherwise each value type must subhint the other
hint. -/
theorem sub_lit_not_lit (vals : List Val) (o : TypeHint)
    (h : isLitB o = false) :
    sub (.lit vals) o =
      (if isJustOrigin o then vals.all fun v => isinst v (originOf o)
       else
         vals.all fun v =>
           (branches o).any fun br => clsLeBranch (.ocls (typeOfVal v)) br) := by
  cases o with
  | lit ovals => simp [isLitB] at h
  | union oargs => rfl
  | cls o2 sg => rfl
  | subscripted s2 c2 args2 => rfl
  | tup bargs bv be => rfl
  | callable bps brret bta => rfl
  | annotated bm bmd => rfl

/-- Generic (non-union, non-literal) subhinting:
`any(self._is_le_branch(branch) for branch in other._branches)`. -/
theorem sub_generic (x o : TypeHint) (h1 : isUnionB x = false)
    (h2 : isLitB x = false) :
    sub x o = ((branches o).any fun br => leBranch x br) := by
  have hbr :
      ∀ y : TypeHint, y = x →
        ((branches o).any fun br =>
          leBranchF ((tsize x + tsize o) * 4) y br) =
        ((branches o).any fun br => leBranch y br) := by
    intro y hy
    subst hy
    refine list_any_congr fun br hbr => ?_
    have h3 := tsize_le_of_mem_branches hbr
    have hp1 := tsize_pos y
    have hp2 := tsize_pos o
    refine leBranchF_eq_leBranch ?_
    simp only [leBranchFuel]
    omega
  cases x with
  | union args => simp [isUnionB] at h1
  | lit vals => simp [isLitB] at h2
  | cls o2 sg => rw [sub_unfold1]; simp only [subF]; exact hbr _ rfl
  | subscripted s2 c2 args2 => rw [sub_unfold1]; simp only [subF]; exact hbr _ rfl
  | tup bargs bv be => rw [sub_unfold1]; simp only [subF]; exact hbr _ rfl
  | callable bps brret bta => rw [sub_unfold1]; simp only [subF]; exact hbr _ rfl
  | annotated bm bmd => rw [sub_unfold1]; simp only [subF]; exact hbr _ rfl

theorem branches_not_union {o : TypeHint} (h : isUnionB o = false) :
    branches o = [o] := by
  cases o <;> first
    | rfl
    | simp [isUnionB] at h

/-- Generic subhinting against a non-union right-hand side reduces to the
single branch predicate. -/
theorem sub_single (x o : TypeHint) (h1 : isUnionB x = false)
    (h2 : isLitB x = false) (h3 : isUnionB o = false) :
    sub x o = leBranch x o := by
  rw [sub_generic x o h1 h2, branches_not_union h3]
  simp

/-- `_TypeHintClass._is_le_branch`. -/
theorem leBranch_cls (o : Origin) (sg : Option Sign) (br : TypeHint) :
    leBranch (.cls o sg) br = clsLeBranch o br := rfl

/-- ArgsN-vs-ArgsN `_is_le_branch`. -/
theorem leBranch_sub_sub (s : Sign) (c : Cls) (args : List TypeHint)
    (s2 : Sign) (c2 : Cls) (args2 : List TypeHint) :
    leBranch (.subscripted s c args) (.subscripted s2 c2 args2) =
      (if isJustOrigin (.subscripted s2 c2 args2) then
        issubO (.ocls c) (originOf (.subscripted s2 c2 args2))
      else
        aritySign s == aritySign s2 && issub c c2 &&
        ((args.zip args2).all fun p => sub p.1 p.2)) := by
  rw [leBranch_unfold1]
  simp only [leBranchF]
  have hz :
      ((args.zip args2).all fun p =>
        subF ((tsize (TypeHint.subscripted s c args) +
          tsize (TypeHint.subscripted s2 c2 args2)) * 4) p.1 p.2) =
      ((args.zip args2).all fun p => sub p.1 p.2) := by
    refine list_all_congr fun p hp => ?_
    have h1 := tsizeList_of_mem (List.of_mem_zip hp).1
    have h2 := tsizeList_of_mem (List.of_mem_zip hp).2
    have h3 := tsize_subscripted_eq s c args
    have h4 := tsize_subscripted_eq s2 c2 args2
    refine subF_eq_sub ?_
    simp only [subFuel]
    omega
  rw [hz]

/-- Tuple-vs-tuple `_is_le_branch` (the shape analysis over
empty/variadic/fixed tuples). -/
theorem leBranch_tup_tup (args : List TypeHint) (v e : Bool)
    (bargs : List TypeHint) (bv be : Bool) :
    leBranch (.tup args v e) (.tup bargs bv be) =
      (if isJustOrigin (.tup bargs bv be) then
        issubO (.ocls .tupleC) (originOf (.tup bargs bv be))
      else if isJustOrigin (.tup args v e) then false
      else if be then e
      else if bv then
        (match bargs with
         | bt :: _ =>
           if v then
             (match args with
              | st :: _ => sub bt st
              | [] => false)
           else args.all fun c2 => sub c2 bt
         | [] => false)
      else if v then false
      else if args.length != bargs.length then false
      else (args.zip bargs).all fun p => sub p.1 p.2) := by
  rw [leBranch_unfold1]
  simp only [leBranchF]
  have h3 := tsize_tup_eq args v e
  have h4 := tsize_tup_eq bargs bv be
  rcases bargs with _ | ⟨bt, brest⟩
  · simp only []
    have hz :
        ((args.zip ([] : List TypeHint)).all fun p =>
          subF ((tsize (TypeHint.tup args v e) +
            tsize (TypeHint.tup [] bv be)) * 4) p.1 p.2) =
        ((args.zip ([] : List TypeHint)).all fun p => sub p.1 p.2) := by
      refine list_all_congr fun p hp => ?_
      exact absurd hp (by simp)
    rw [hz]
  · have hbt : 1 + tsize bt ≤ tsizeList (bt :: brest) := by
      simp only [tsizeList]; omega
    have hz3 :
        ((args.zip (bt :: brest)).all fun p =>
          subF ((tsize (TypeHint.tup args v e) +
            tsize (TypeHint.tup (bt :: brest) bv be)) * 4) p.1 p.2) =
        ((args.zip (bt :: brest)).all fun p => sub p.1 p.2) := by
      refine list_all_congr fun p hp => ?_
      have h1 := tsizeList_of_mem (List.of_mem_zip hp).1
      have h2 := tsizeList_of_mem (List.of_mem_zip hp).2
      refine subF_eq_sub ?_
      simp only [subFuel]
      omega
    have hz2 :
        (args.all fun c2 =>
          subF ((tsize (TypeHint.tup args v e) +
            tsize (TypeHint.tup (bt :: brest) bv be)) * 4) c2 bt) =
        (args.all fun c2 => sub c2 bt) := by
      refine list_all_congr fun c2 hc => ?_
      have h1 := tsizeList_of_mem hc
      refine subF_eq_sub ?_
      simp only [subFuel]
      omega
    rcases args with _ | ⟨st, srest⟩
    · simp only []
      rw [hz2, hz3]
    · have hst : 1 + tsize st ≤ tsizeList (st :: srest) := by
        simp only [tsizeList]; omega
      have hz1 :
          subF ((tsize (TypeHint.tup (st :: srest) v e) +
            tsize (TypeHint.tup (bt :: brest) bv be)) * 4) bt st =
            sub bt st := by
        refine subF_eq_sub ?_
        simp only [subFuel]
        omega
      simp only []
      rw [hz1, hz2, hz3]

/-- Callable-vs-callable `_is_le_branch` (contravariant-parameter and
covariant-return analysis as implemented). -/
theorem leBranch_call_call (ps : List TypeHint) (r : TypeHint) (ta : Bool)
    (bps : List TypeHint) (brret : TypeHint) (bta : Bool) :
    leBranch (.callable ps r ta) (.callable bps brret bta) =
      (if isJustOrigin (.callable bps brret bta) then
        issubO (.ocls .callableC) (originOf (.callable bps brret bta))
      else if !issub .callableC .callableC then false
      else if !bta && (ta || ps.length != bps.length ||
          ((ps.zip bps).any fun p => sub p.2 p.1 && !teq p.1 p.2)) then false
      else if !isAnyDesc brret then
        (if isAnyDesc r then false else sub r brret)
      else true) := by
  rw [leBranch_unfold1]
  simp only [leBranchF]
  have h3 := tsize_callable_eq ps r ta
  have h4 := tsize_callable_eq bps brret bta
  have hz1 :
      ((ps.zip bps).any fun p =>
        subF ((tsize (TypeHint.callable ps r ta) +
          tsize (TypeHint.callable bps brret bta)) * 4) p.2 p.1 &&
          !teq p.1 p.2) =
      ((ps.zip bps).any fun p => sub p.2 p.1 && !teq p.1 p.2) := by
    refine list_any_congr fun p hp => ?_
    have h1 := tsizeList_of_mem (List.of_mem_zip hp).1
    have h2 := tsizeList_of_mem (List.of_mem_zip hp).2
    have hf :
        subF ((tsize (TypeHint.callable ps r ta) +
          tsize (TypeHint.callable bps brret bta)) * 4) p.2 p.1 =
          sub p.2 p.1 := by
      refine subF_eq_sub ?_
      simp only [subFuel]
      omega
    rw [hf]
  have hz2 :
      subF ((tsize (TypeHint.callable ps r ta) +
        tsize (TypeHint.callable bps brret bta)) * 4) r brret =
        sub r brret := by
    refine subF_eq_sub ?_
    simp only [subFuel]
    omega
  rw [hz1, hz2]

/-- Annotated-vs-annotated `_is_le_branch`: subhint fails when the
metahint is strictly above the branch metahint or the metadata lengths
differ, and otherwise reduces to metadata equality with raised comparison
exceptions swallowed as `false`. -/
theorem leBranch_ann_ann (m : TypeHint) (md : List MetaObj)
    (bm : TypeHint) (bmd : List MetaObj) :
    leBranch (.annotated m md) (.annotated bm bmd) =
      (if (sub bm m && !teq m bm) || md.length != bmd.length then false
       else exceptFalse (listMetaEq md bmd)) := by
  rw [leBranch_unfold1]
  simp only [leBranchF]
  have h3 := tsize_annotated_eq m md
  have h4 := tsize_annotated_eq bm bmd
  have hz :
      subF ((tsize (TypeHint.annotated m md) +
        tsize (TypeHint.annotated bm bmd)) * 4) bm m = sub bm m := by
    refine subF_eq_sub ?_
    simp only [subFuel]
    omega
  rw [hz]

/-- True iff the descriptor is an annotated variant. -/
def isAnnB : TypeHint → Bool
  | .annotated _ _ => true
  | _ => false

/-- Annotated-vs-non-annotated `_is_le_branch`: annotations are
transparent, deferring to the metahint. -/
theorem leBranch_ann_other (m : TypeHint) (md : List MetaObj)
    (br : TypeHint) (h : isAnnB br = false) :
    leBranch (.annotated m md) br = sub m br := by
  have h3 := tsize_annotated_eq m md
  have key :
      ∀ b2 : TypeHint, b2 = br →
        subF ((tsize (TypeHint.annotated m md) + tsize br) * 4) m b2 =
          sub m b2 := by
    intro b2 hb
    subst hb
    refine subF_eq_sub ?_
    simp only [subFuel]
    omega
  cases br with
  | annotated bm bmd => simp [isAnnB] at h
  | cls o2 sg => rw [leBranch_unfold1]; simp only [leBranchF]; exact key _ rfl
  | subscripted s2 c2 args2 =>
    rw [leBranch_unfold1]; simp only [leBranchF]; exact key _ rfl
  | tup bargs bv be =>
    rw [leBranch_unfold1]; simp only [leBranchF]; exact key _ rfl
  | callable bps brret bta =>
    rw [leBranch_unfold1]; simp only [leBranchF]; exact key _ rfl
  | lit ovals => rw [leBranch_unfold1]; simp only [leBranchF]; exact key _ rfl
  | union oargs => rw [leBranch_unfold1]; simp only [leBranchF]; exact key _ rfl


theorem teq_unfold1 (a b : TypeHint) :
    teq a b = teqF ((tsize a + tsize b) * 2 + 1) a b := by
  refine (teqF_eq_teq ?_).symm
  have hp1 := tsize_pos a
  have hp2 := tsize_pos b
  simp only [teqFuel]
  omega

/-- `_TypeHintAnnotated.__eq__`: metahint and metadata equality. -/
theorem teq_ann_ann (m : TypeHint) (md : List MetaObj) (m2 : TypeHint)
    (md2 : List MetaObj) :
    teq (.annotated m md) (.annotated m2 md2) =
      (teq m m2 && exceptFalse (listMetaEq md md2)) := by
  rw [teq_unfold1]
  simp only [teqF]
  have h3 := tsize_annotated_eq m md
  have h4 := tsize_annotated_eq m2 md2
  have hz :
      teqF ((tsize (TypeHint.annotated m md) +
        tsize (TypeHint.annotated m2 md2)) * 2) m m2 = teq m m2 := by
    refine teqF_eq_teq ?_
    simp only [teqFuel]
    omega
  rw [hz]

/-- `TypeHint.__eq__` for a non-annotated left operand. -/
theorem teq_not_ann (a b : TypeHint) (h : isAnnB a = false) :
    teq a b =
      (if isJustOrigin a && isJustOrigin b then originOf a == originOf b
       else
         signOfDesc a == signOfDesc b &&
         (argsWrapped a).length == (argsWrapped b).length &&
         ((argsWrapped a).zip (argsWrapped b)).all fun p => teq p.1 p.2) := by
  have key :
      ∀ x : TypeHint, x = a →
        (((argsWrapped x).zip (argsWrapped b)).all fun p =>
          teqF ((tsize a + tsize b) * 2) p.1 p.2) =
        (((argsWrapped x).zip (argsWrapped b)).all fun p => teq p.1 p.2) := by
    intro x hx
    subst hx
    refine list_all_congr fun p hp => ?_
    have h1 := tsize_lt_of_mem_argsWrapped (List.of_mem_zip hp).1
    have h2 := tsize_lt_of_mem_argsWrapped (List.of_mem_zip hp).2
    refine teqF_eq_teq ?_
    simp only [teqFuel]
    omega
  cases a with
  | annotated m md => simp [isAnnB] at h
  | cls o sg => rw [teq_unfold1]; simp only [teqF]; rw [key _ rfl]
  | subscripted s c args => rw [teq_unfold1]; simp only [teqF]; rw [key _ rfl]
  | tup args v e => rw [teq_unfold1]; simp only [teqF]; rw [key _ rfl]
  | callable ps r ta => rw [teq_unfold1]; simp only [teqF]; rw [key _ rfl]
  | lit vals => rw [teq_unfold1]; simp only [teqF]; rw [key _ rfl]
  | union args => rw [teq_unfold1]; simp only [teqF]; rw [key _ rfl]

theorem issub_refl (c : Cls) : issub c c = true := by
  simp [issub]

theorem issubO_refl (o : Origin) : issubO o o = true := by
  cases o with
  | ocls c => simp [issubO, issub_refl]
  | oany => rfl

theorem valEq_refl (v : Val) : valEq v v = true := by
  cases v <;> simp [valEq]

theorem metaElemEq_refl (a : MetaObj) : metaElemEq a a = .ok true := by
  simp [metaElemEq]

theorem listMetaEq_refl (md : List MetaObj) : listMetaEq md md = .ok true := by
  induction md with
  | nil => rfl
  | cons a xs ih =>
    simp only [listMetaEq, metaElemEq_refl]
    rw [ih]
    rfl

theorem zip_self_all {l : List TypeHint} {f : TypeHint → TypeHint → Bool}
    (h : ∀ x ∈ l, f x x = true) :
    ((l.zip l).all fun p => f p.1 p.2) = true := by
  induction l with
  | nil => rfl
  | cons x xs ih =>
    simp only [List.zip_cons_cons, List.all_cons]
    rw [h x (List.mem_cons_self x xs),
      ih fun y hy => h y (List.mem_cons_of_mem x hy)]
    rfl

theorem teq_refl (a0 : TypeHint) : teq a0 a0 = true := by
  have H : ∀ n, ∀ a : TypeHint, tsize a ≤ n → teq a a = true := by
    intro n
    induction n with
    | zero =>
      intro a ha
      have := tsize_pos a
      omega
    | succ n ih =>
      intro a ha
      cases a with
      | annotated m md =>
        rw [teq_ann_ann, listMetaEq_refl]
        have h3 := tsize_annotated_eq m md
        rw [ih m (by omega)]
        rfl
      | cls o sg =>
        rw [teq_not_ann (TypeHint.cls o sg) _ rfl]
        simp [isJustOrigin, originOf]
      | subscripted s c args =>
        rw [teq_not_ann (TypeHint.subscripted s c args) _ rfl]
        have h5 := tsize_subscripted_eq s c args
        have hz := zip_self_all (l := args) fun x hx => by
          have := tsizeList_of_mem hx
          exact ih x (by omega)
        rcases hjo : isJustOrigin (TypeHint.subscripted s c args) <;>
          simp [hjo, argsWrapped, hz]
      | tup args v e =>
        rw [teq_not_ann (TypeHint.tup args v e) _ rfl]
        have h5 := tsize_tup_eq args v e
        have hz := zip_self_all (l := args) fun x hx => by
          have := tsizeList_of_mem hx
          exact ih x (by omega)
        rcases hjo : isJustOrigin (TypeHint.tup args v e) <;>
          simp [hjo, argsWrapped, hz]
      | callable ps r ta =>
        rw [teq_not_ann (TypeHint.callable ps r ta) _ rfl]
        have h5 := tsize_callable_eq ps r ta
        have hz := zip_self_all (l := ps ++ [r]) fun x hx => by
          have h6 : tsize x < tsize (TypeHint.callable ps r ta) :=
            tsize_lt_of_mem_argsWrapped (d := TypeHint.callable ps r ta)
              (by simpa [argsWrapped] using hx)
          exact ih x (by omega)
        rcases hjo : isJustOrigin (TypeHint.callable ps r ta) <;>
          simp [hjo, argsWrapped, hz]
      | lit vals =>
        rw [teq_not_ann (TypeHint.lit vals) _ rfl]
        simp [isJustOrigin, argsWrapped]
      | union args =>
        rw [teq_not_ann (TypeHint.union args) _ rfl]
        have h5 := tsize_union_eq args
        have hz := zip_self_all (l := args) fun x hx => by
          have := tsizeList_of_mem hx
          exact ih x (by omega)
        rcases hjo : isJustOrigin (TypeHint.union args) <;>
          simp [hjo, argsWrapped, hz]
  exact H (tsize a0) a0 le_rfl


mutual

/-- Structural invariants holding of every descriptor built by `wrap`:
a variadic tuple stores exactly one element descriptor, an empty tuple
stores none and is not variadic, and a callable accepting arbitrary
arguments stores no parameter descriptors. -/
def WFb : TypeHint → Bool
  | .cls _ _ => true
  | .subscripted _ _ args => WFbList args
  | .tup args v e =>
    (if v then args.length == 1 else true) &&
    (if e then args.isEmpty && !v else true) && WFbList args
  | .callable ps r ta =>
    (if ta then ps.isEmpty else true) && WFbList ps && WFb r
  | .lit _ => true
  | .annotated m _ => WFb m
  | .union args => WFbList args

/-- `WFb` over a child list. -/
def WFbList : List TypeHint → Bool
  | [] => true
  | x :: xs => WFb x && WFbList xs

end

theorem WFbList_mem {l : List TypeHint} {x : TypeHint}
    (h : WFbList l = true) (hx : x ∈ l) : WFb x = true := by
  induction l with
  | nil => cases hx
  | cons y ys ih =>
    simp only [WFbList, Bool.and_eq_true] at h
    rcases List.mem_cons.mp hx with rfl | hx2
    · exact h.1
    · exact ih h.2 hx2

theorem zip_self_any_false {l : List TypeHint}
    {f : TypeHint × TypeHint → Bool} (h : ∀ x ∈ l, f (x, x) = false) :
    ((l.zip l).any fun p => f p) = false := by
  induction l with
  | nil => rfl
  | cons x xs ih =>
    simp only [List.zip_cons_cons, List.any_cons]
    rw [h x (List.mem_cons_self x xs),
      ih fun y hy => h y (List.mem_cons_of_mem x hy)]
    rfl

theorem all_self_any {vals : List Val} :
    (vals.all fun v => vals.any fun w => valEq v w) = true := by
  refine List.all_eq_true.mpr fun v hv => ?_
  exact List.any_eq_true.mpr ⟨v, hv, valEq_refl v⟩

/-- Reflexivity of the subhint relation on well-formed descriptors. -/
theorem sub_refl_wf (d0 : TypeHint) (hwf0 : WFb d0 = true) :
    sub d0 d0 = true := by
  have H : ∀ n, ∀ a : TypeHint, tsize a ≤ n → WFb a = true →
      sub a a = true := by
    intro n
    induction n with
    | zero =>
      intro a ha _
      have := tsize_pos a
      omega
    | succ n ih =>
      intro a ha hwf
      cases a with
      | cls o sg =>
        rw [sub_single (TypeHint.cls o sg) (TypeHint.cls o sg) rfl rfl rfl,
          leBranch_cls]
        rcases ho : o == Origin.oany <;>
          simp [clsLeBranch, originOf, isJustOrigin, ho, issubO_refl]
      | subscripted s c args =>
        simp only [WFb] at hwf
        have h5 := tsize_subscripted_eq s c args
        rw [sub_single (TypeHint.subscripted s c args)
          (TypeHint.subscripted s c args) rfl rfl rfl, leBranch_sub_sub]
        rcases hjo : isJustOrigin (TypeHint.subscripted s c args)
        · have hz := zip_self_all (l := args) fun x hx => by
            have := tsizeList_of_mem hx
            exact ih x (by omega) (WFbList_mem hwf hx)
          simp [hjo, hz, issub_refl]
        · simp [hjo, originOf, issubO, issub_refl]
      | tup args v e =>
        simp only [WFb, Bool.and_eq_true] at hwf
        obtain ⟨⟨hv, he⟩, hwargs⟩ := hwf
        have h5 := tsize_tup_eq args v e
        rw [sub_single (TypeHint.tup args v e) (TypeHint.tup args v e)
          rfl rfl rfl, leBranch_tup_tup]
        rcases hjo : isJustOrigin (TypeHint.tup args v e)
        · simp only [hjo, Bool.false_eq_true, if_false]
          rcases hee : e
          · rcases hvv : v
            · have hz := zip_self_all (l := args) fun x hx => by
                have := tsizeList_of_mem hx
                exact ih x (by omega) (WFbList_mem hwargs hx)
              simp [hz]
            · subst hvv
              simp only [if_true] at hv
              have hlen : args.length = 1 := by simpa using hv
              obtain ⟨st, rfl⟩ := List.length_eq_one.mp hlen
              have hst : tsize st < tsize (TypeHint.tup [st] true e) := by
                rw [h5]
                simp only [tsizeList]
                omega
              simp only []
              exact ih st (by omega) (WFbList_mem hwargs (by simp))
          · simp [hee]
        · simp [hjo, originOf, issubO, issub_refl]
      | callable ps r ta =>
        simp only [WFb, Bool.and_eq_true] at hwf
        obtain ⟨⟨hta, hwps⟩, hwr⟩ := hwf
        have h5 := tsize_callable_eq ps r ta
        rw [sub_single (TypeHint.callable ps r ta) (TypeHint.callable ps r ta)
          rfl rfl rfl, leBranch_call_call]
        rcases hjo : isJustOrigin (TypeHint.callable ps r ta)
        · simp only [hjo, Bool.false_eq_true, if_false, issub_refl,
            Bool.not_true, Bool.false_eq_true, if_false]
          have hgt :
              ((ps.zip ps).any fun p => sub p.2 p.1 && !teq p.1 p.2) =
                false := by
            refine zip_self_any_false fun x hx => ?_
            simp [teq_refl]
          rcases hta2 : ta
          · simp only [hta2, Bool.not_false, Bool.false_or, hgt,
              bne_self_eq_false, Bool.or_false, Bool.true_and,
              Bool.false_eq_true, if_false]
            rcases hr : isAnyDesc r
            · simp only [hr, Bool.not_false, if_true, Bool.false_eq_true,
                if_false]
              exact ih r (by omega) hwr
            · simp [hr]
          · rcases hr : isAnyDesc r
            · have hs := ih r (by omega) hwr
              simp [hta2, hr, hs]
            · simp [hta2, hr]
        · simp [hjo, originOf, issubO, issub_refl]
      | lit vals =>
        rw [sub_lit_lit]
        exact all_self_any
      | annotated m md =>
        have h5 := tsize_annotated_eq m md
        simp only [WFb] at hwf
        rw [sub_single (TypeHint.annotated m md) (TypeHint.annotated m md)
          rfl rfl rfl, leBranch_ann_ann]
        simp [teq_refl, listMetaEq_refl, exceptFalse]
      | union args =>
        simp only [WFb] at hwf
        have h5 := tsize_union_eq args
        rw [sub_union_union]
        refine List.all_eq_true.mpr fun b hb => ?_
        refine List.any_eq_true.mpr ⟨b, hb, ?_⟩
        have := tsizeList_of_mem hb
        exact ih b (by omega) (WFbList_mem hwf hb)
  exact H (tsize d0) d0 le_rfl hwf0


/-- Errors raised by the DOOR layer:

* `nonpep` — `BeartypeDoorNonpepException` (unsupported hint).
* `door` — `BeartypeDoorException` (malformed child count).
* `notADescriptor` — the error raised by `die_unless_typehint` when a
  comparison operand is not a type hint wrapper. -/
inductive DoorErr where
  | nonpep
  | door
  | notADescriptor
deriving DecidableEq

/-- Signs handled by the `_TypeHintOriginIsinstanceableArgsN` variants
(`HINT_SIGNS_ORIGIN_ISINSTANCEABLE_ARGS_N` in `_init`). -/
inductive ArgsSign where
  | aList
  | aSet
  | aDict
  | aGenerator
deriving DecidableEq

/-- The sign denoted by an ArgsN-family sign. -/
def ArgsSign.toSign : ArgsSign → Sign
  | .aList => .sList
  | .aSet => .sSet
  | .aDict => .sDict
  | .aGenerator => .sGenerator

/-- `_required_nargs` for an ArgsN-family sign. -/
def arityA : ArgsSign → Nat
  | .aList => 1
  | .aSet => 1
  | .aDict => 2
  | .aGenerator => 3

/-- The concrete `TypeHint` subclasses, as registry values. -/
inductive Variant where
  | vclass
  | vargs (n : Nat)
  | vtuple
  | vcallable
  | vliteral
  | vannotated
  | vunion
deriving DecidableEq

/-- `HINT_SIGN_TO_TYPEHINT` after `_init()`: the variant registry.
`HintSignAny` is not registered (`typing.Any` reaches `_TypeHintClass`
only through the typing-module fallback). -/
def HINT_SIGN_TO_TYPEHINT : Sign → Option Variant
  | .sList => some (.vargs 1)
  | .sSet => some (.vargs 1)
  | .sDict => some (.vargs 2)
  | .sGenerator => some (.vargs 3)
  | .sTuple => some .vtuple
  | .sCallable => some .vcallable
  | .sLiteral => some .vliteral
  | .sAnnotated => some .vannotated
  | .sUnion => some .vunion
  | .sAny => none

/-- Raw annotation values passed to `TypeHint.__new__`:

* `rcls c` — a bare class.
* `rany` — the `typing.Any` marker.
* `rellipsis` / `runit` — the `...` and `()` objects (only meaningful
  inside `Tuple[...]` subscripts; wrapping them directly fails).
* `runsup k` — an arbitrary unsupported object (no sign, not a class,
  not a typing-module attribute).
* `rsub a c args` — an ArgsN-family hint (e.g. `List[int]`) with origin
  class `c`.
* `rtup args` — `Tuple[...]`.
* `rcallEll ret` — `Callable[..., ret]`; `rcallList ps ret` —
  `Callable[[...], ret]`.
* `rlit v vs` — `Literal[v, *vs]` (at least one value).
* `rann m md mds` — `Annotated[m, md, *mds]` (at least one metadatum).
* `runion a b rest` — `Union[a, b, *rest]` (at least two members, as the
  `typing` module collapses smaller unions). -/
inductive RawHint where
  | rcls (c : Cls)
  | rany
  | rellipsis
  | runit
  | runsup (k : Nat)
  | rsub (a : ArgsSign) (c : Cls) (args : List RawHint)
  | rtup (args : List RawHint)
  | rcallEll (ret : RawHint)
  | rcallList (ps : List RawHint) (ret : RawHint)
  | rlit (v : Val) (vs : List Val)
  | rann (m : RawHint) (md : MetaObj) (mds : List MetaObj)
  | runion (a b : RawHint) (rest : List RawHint)

/-- `get_hint_pep_sign_or_none` on the modelled raw universe. -/
def signOfRaw : RawHint → Option Sign
  | .rcls _ => none
  | .rany => some .sAny
  | .rellipsis => none
  | .runit => none
  | .runsup _ => none
  | .rsub a _ _ => some a.toSign
  | .rtup _ => some .sTuple
  | .rcallEll _ => some .sCallable
  | .rcallList _ _ => some .sCallable
  | .rlit _ _ => some .sLiteral
  | .rann _ _ _ => some .sAnnotated
  | .runion _ _ _ => some .sUnion

/-- `isinstance(hint, type)`: true only for bare classes. -/
def isTypeRaw : RawHint → Bool
  | .rcls _ => true
  | _ => false

/-- `getattr(hint, "__module__", "") == "typing"`: true for `typing.Any`
and for every subscripted typing-module hint. -/
def isTypingModuleRaw : RawHint → Bool
  | .rany => true
  | .rsub _ _ _ => true
  | .rtup _ => true
  | .rcallEll _ => true
  | .rcallList _ _ => true
  | .rlit _ _ => true
  | .rann _ _ _ => true
  | .runion _ _ _ => true
  | _ => false

mutual

/-- `TypeHint(hint)` on a raw (not yet wrapped) annotation: the
`__new__` dispatch (sign lookup in `HINT_SIGN_TO_TYPEHINT`, plain-class
and typing-module fallback, degenerate argument-less hints forced to
`_TypeHintClass`) followed by `__init__` and the variant `_munge_args`
validation, with raised exceptions as `Except.error`. -/
def wrap : RawHint → Except DoorErr TypeHint
  | .rcls c => .ok (.cls (.ocls c) none)
  | .rany => .ok (.cls .oany (some .sAny))
  | .rellipsis => .error .nonpep
  | .runit => .error .nonpep
  | .runsup _ => .error .nonpep
  | .rsub a c args =>
    if args.isEmpty then .ok (.cls (.ocls c) (some a.toSign))
    else if args.length != arityA a then .error .door
    else do
      let ws ← wrapList args
      .ok (.subscripted a.toSign c ws)
  | .rtup args =>
    match args with
    | [] => .ok (.cls (.ocls .tupleC) (some .sTuple))
    | [.runit] => .ok (.tup [] false true)
    | [x, .rellipsis] => do
      let w ← wrap x
      .ok (.tup [w] true false)
    | args2 => do
      let ws ← wrapList args2
      .ok (.tup ws false false)
  | .rcallEll ret => do
    let w ← wrap ret
    .ok (.callable [] w true)
  | .rcallList ps ret => do
    let ws ← wrapList ps
    let w ← wrap ret
    .ok (.callable ws w false)
  | .rlit v vs => .ok (.lit (v :: vs))
  | .rann m md mds => do
    let w ← wrap m
    .ok (.annotated w (md :: mds))
  | .runion a b rest => do
    let wa ← wrap a
    let wb ← wrap b
    let ws ← wrapList rest
    .ok (.union (wa :: wb :: ws))

/-- `_wrap_children`: wrap a child list, propagating errors. -/
def wrapList : List RawHint → Except DoorErr (List TypeHint)
  | [] => .ok []
  | r :: rs => do
    let w ← wrap r
    let ws ← wrapList rs
    .ok (w :: ws)

end

mutual

/-- Computable size of a raw hint. -/
def rsize : RawHint → Nat
  | .rcls _ => 1
  | .rany => 1
  | .rellipsis => 1
  | .runit => 1
  | .runsup _ => 1
  | .rsub _ _ args => 1 + rsizeList args
  | .rtup args => 1 + rsizeList args
  | .rcallEll ret => 1 + rsize ret
  | .rcallList ps ret => 1 + rsizeList ps + rsize ret
  | .rlit _ _ => 1
  | .rann m _ _ => 1 + rsize m
  | .runion a b rest => 1 + rsize a + rsize b + rsizeList rest

/-- Computable size of a raw hint list. -/
def rsizeList : List RawHint → Nat
  | [] => 0
  | r :: rs => 1 + rsize r + rsizeList rs

end

theorem rsize_pos (r : RawHint) : 1 ≤ rsize r := by
  cases r <;> simp only [rsize] <;> omega

theorem except_bind_ok {α β : Type} {x : Except DoorErr α}
    {f : α → Except DoorErr β} {b : β} (h : (x >>= f) = .ok b) :
    ∃ a, x = .ok a ∧ f a = .ok b := by
  cases x with
  | error e => simp [Bind.bind, Except.bind] at h
  | ok a => exact ⟨a, rfl, by simpa [Bind.bind, Except.bind] using h⟩


theorem wrap_WF_all :
    ∀ k,
      (∀ r d, rsize r ≤ k → wrap r = .ok d → WFb d = true) ∧
      (∀ rs ds, rsizeList rs ≤ k → wrapList rs = .ok ds →
        WFbList ds = true) := by
  intro k
  induction k with
  | zero =>
    constructor
    · intro r d hr _
      have := rsize_pos r
      omega
    · intro rs ds hr hw
      cases rs with
      | nil =>
        simp only [wrapList] at hw
        injection hw with h
        subst h
        rfl
      | cons r rs2 =>
        simp only [rsizeList] at hr
        have := rsize_pos r
        omega
  | succ k ih =>
    obtain ⟨ihr, ihl⟩ := ih
    constructor
    · intro r d hr hw
      cases r with
      | rcls c =>
        simp only [wrap] at hw
        injection hw with h
        subst h
        rfl
      | rany =>
        simp only [wrap] at hw
        injection hw with h
        subst h
        rfl
      | rellipsis => simp only [wrap] at hw; simp at hw
      | runit => simp only [wrap] at hw; simp at hw
      | runsup k2 => simp only [wrap] at hw; simp at hw
      | rlit v vs =>
        simp only [wrap] at hw
        injection hw with h
        subst h
        rfl
      | rann m md mds =>
        simp only [wrap] at hw
        obtain ⟨w, hwm, h2⟩ := except_bind_ok hw
        injection h2 with h
        subst h
        simp only [rsize] at hr
        simp only [WFb]
        exact ihr m w (by omega) hwm
      | rcallEll ret =>
        simp only [wrap] at hw
        obtain ⟨w, hwm, h2⟩ := except_bind_ok hw
        injection h2 with h
        subst h
        simp only [rsize] at hr
        have hwf := ihr ret w (by omega) hwm
        simp [WFb, WFbList, hwf]
      | rcallList ps ret =>
        simp only [wrap] at hw
        obtain ⟨ws, hws, h2⟩ := except_bind_ok hw
        obtain ⟨w, hwret, h3⟩ := except_bind_ok h2
        injection h3 with h
        subst h
        simp only [rsize] at hr
        have hwf1 := ihl ps ws (by omega) hws
        have hwf2 := ihr ret w (by omega) hwret
        simp [WFb, hwf1, hwf2]
      | runion a b rest =>
        simp only [wrap] at hw
        obtain ⟨wa, hwa, h2⟩ := except_bind_ok hw
        obtain ⟨wb, hwb, h3⟩ := except_bind_ok h2
        obtain ⟨ws, hws, h4⟩ := except_bind_ok h3
        injection h4 with h
        subst h
        simp only [rsize] at hr
        have hb := rsize_pos b
        have hwf1 := ihr a wa (by omega) hwa
        have hwf2 := ihr b wb (by omega) hwb
        have hwf3 := ihl rest ws (by omega) hws
        simp [WFb, WFbList, hwf1, hwf2, hwf3]
      | rsub a c args =>
        simp only [rsize] at hr
        rcases hempty : args.isEmpty with _ | _
        · rcases hlen : args.length != arityA a with _ | _
          · simp only [wrap, hempty, hlen, Bool.false_eq_true, if_false] at hw
            obtain ⟨ws, hws, h2⟩ := except_bind_ok hw
            injection h2 with h
            subst h
            simp only [WFb]
            exact ihl args ws (by omega) hws
          · simp only [wrap, hempty, hlen, Bool.false_eq_true, if_false,
              if_true] at hw
            simp at hw
        · simp only [wrap, hempty, if_true] at hw
          injection hw with h
          subst h
          rfl
      | rtup args =>
        simp only [rsize] at hr
        have hcatch :
            ∀ args2 d2, rsizeList args2 ≤ rsizeList args →
              (wrapList args2 >>= fun ws =>
                Except.ok (TypeHint.tup ws false false)) = .ok d2 →
              WFb d2 = true := by
          intro args2 d2 hsz hw2
          obtain ⟨ws, hws, h2⟩ := except_bind_ok hw2
          injection h2 with h
          subst h
          have hwf := ihl args2 ws (by omega) hws
          simp [WFb, hwf]
        cases args with
        | nil =>
          simp only [wrap] at hw
          injection hw with h
          subst h
          rfl
        | cons x1 tl =>
          cases tl with
          | nil =>
            cases x1 <;>
              first
                | (simp only [wrap] at hw
                   injection hw with h
                   subst h
                   rfl)
                | (simp only [wrap] at hw
                   refine hcatch _ _ ?_ hw
                   omega)
          | cons x2 rest =>
            cases rest with
            | nil =>
              cases x2 <;>
                first
                  | (simp only [wrap] at hw
                     refine hcatch _ _ ?_ hw
                     omega)
                  | (simp only [wrap] at hw
                     obtain ⟨w, hwx, h2⟩ := except_bind_ok hw
                     injection h2 with h
                     subst h
                     simp only [rsizeList] at hr
                     have hwf := ihr x1 w (by omega) hwx
                     simp [WFb, WFbList, hwf])
            | cons x3 rest2 =>
              simp only [wrap] at hw
              refine hcatch _ _ ?_ hw
              omega
    · intro rs ds hr hw
      cases rs with
      | nil =>
        simp only [wrapList] at hw
        injection hw with h
        subst h
        rfl
      | cons r rs2 =>
        simp only [wrapList] at hw
        obtain ⟨w, hwr, h2⟩ := except_bind_ok hw
        obtain ⟨ws, hws, h3⟩ := except_bind_ok h2
        injection h3 with h
        subst h
        simp only [rsizeList] at hr
        have hwf1 := ihr r w (by omega) hwr
        have hwf2 := ihl rs2 ws (by omega) hws
        simp [WFbList, hwf1, hwf2]

/-- Every descriptor successfully constructed by `wrap` satisfies the
structural invariants `WFb`. -/
theorem wrap_WF {r : RawHint} {d : TypeHint} (hw : wrap r = .ok d) :
    WFb d = true :=
  (wrap_WF_all (rsize r)).1 r d le_rfl hw


/-- An argument to `TypeHint.__new__`: either a raw annotation or an
already-constructed descriptor. -/
inductive WrapArg where
  | raw (r : RawHint)
  | wrapped (d : TypeHint)

/-- `TypeHint(hint)` in full: `__new__` returns an already-wrapped
descriptor unchanged, and otherwise constructs it from the raw value. -/
def wrapFull : WrapArg → Except DoorErr TypeHint
  | .wrapped d => .ok d
  | .raw r => wrap r

/-- A right-hand operand of a comparison: a descriptor, or an arbitrary
non-descriptor object. -/
inductive Operand where
  | hintOp (d : TypeHint)
  | nonHint (k : Nat)

/-- Modelled from the spec: `die_unless_typehint` (from the external
`beartype.door._doortest` module, not part of the modelled sources)
raises the `NotADescriptor` error when its operand is not a `TypeHint`
wrapper, and returns silently otherwise. -/
def dieUnlessTypehint : Operand → Except DoorErr Unit
  | .hintOp _ => .ok ()
  | .nonHint _ => .error .notADescriptor

/-- `TypeHint.is_subhint` on an arbitrary operand: `die_unless_typehint`
first, then the branch analysis (`sub`). -/
def isSubhintOp (self : TypeHint) (o : Operand) : Except DoorErr Bool := do
  let _ ← dieUnlessTypehint o
  match o with
  | .hintOp d => pure (sub self d)
  | .nonHint _ => .error .notADescriptor

/-- `TypeHint.is_superhint`: `die_unless_typehint`, then
`other.is_subhint(self)`. -/
def isSuperhintOp (self : TypeHint) (o : Operand) : Except DoorErr Bool := do
  let _ ← dieUnlessTypehint o
  match o with
  | .hintOp d => pure (sub d self)
  | .nonHint _ => .error .notADescriptor

/-- `TypeHint.__eq__`: a non-descriptor operand compares unequal without
raising. -/
def eqOp (self : TypeHint) : Operand → Bool
  | .hintOp d => teq self d
  | .nonHint _ => false

/-- `TypeHint.__ne__`: negation of `__eq__`. -/
def neOp (self : TypeHint) (o : Operand) : Bool := !eqOp self o

/-- Result of a rich-comparison special method: a boolean, or the
`NotImplemented` marker. -/
inductive CmpResult where
  | res (b : Bool)
  | notImplemented
deriving DecidableEq

/-- `TypeHint.__le__`. -/
def leOp (self : TypeHint) : Operand → CmpResult
  | .hintOp d => .res (sub self d)
  | .nonHint _ => .notImplemented

/-- `TypeHint.__lt__`. -/
def ltOp (self : TypeHint) : Operand → CmpResult
  | .hintOp d => .res (sub self d && !teq self d)
  | .nonHint _ => .notImplemented

/-- `TypeHint.__ge__`. -/
def geOp (self : TypeHint) : Operand → CmpResult
  | .hintOp d => .res (sub d self)
  | .nonHint _ => .notImplemented

/-- `TypeHint.__gt__`. -/
def gtOp (self : TypeHint) : Operand → CmpResult
  | .hintOp d => .res (sub d self && !teq self d)
  | .nonHint _ => .notImplemented


theorem sub_cls_any_branches (oo : Origin) (sg : Option Sign)
    (o : TypeHint) :
    sub (.cls oo sg) o = ((branches o).any fun br => clsLeBranch oo br) := by
  rw [sub_generic (.cls oo sg) o rfl rfl]
  exact list_any_congr fun br _ => leBranch_cls oo sg br

/-- C1: Antisymmetry of the subhint order fails on the code.  The union
descriptors built from `Union[int, str]` and `Union[str, int]` are
mutual subhints (the union comparison is set-like and order-independent),
but `__eq__` compares their children pairwise in order and reports them
unequal — contradicting the antisymmetry law asserted by the `TypeHint`
class docstring and the specification. -/
theorem claim_C1_antisymmetry_failure :
    wrap (.runion (.rcls .intC) (.rcls .strC) []) =
      .ok (.union [.cls (.ocls .intC) none, .cls (.ocls .strC) none]) ∧
    wrap (.runion (.rcls .strC) (.rcls .intC) []) =
      .ok (.union [.cls (.ocls .strC) none, .cls (.ocls .intC) none]) ∧
    sub (.union [.cls (.ocls .intC) none, .cls (.ocls .strC) none])
        (.union [.cls (.ocls .strC) none, .cls (.ocls .intC) none]) = true ∧
    sub (.union [.cls (.ocls .strC) none, .cls (.ocls .intC) none])
        (.union [.cls (.ocls .intC) none, .cls (.ocls .strC) none]) = true ∧
    teq (.union [.cls (.ocls .intC) none, .cls (.ocls .strC) none])
        (.union [.cls (.ocls .strC) none, .cls (.ocls .intC) none]) =
      false := by
  refine ⟨rfl, rfl, ?_, ?_, ?_⟩ <;> decide

/-- C3: Reflexivity of the subhint order: every descriptor successfully
constructed by `wrap` is a subhint of itself. -/
theorem claim_C3_reflexivity (r : RawHint) (d : TypeHint)
    (hw : wrap r = .ok d) : sub d d = true :=
  sub_refl_wf d (wrap_WF hw)

theorem claim_C3_witness :
    wrap (.rsub .aList .listC [.rcls .intC]) =
      .ok (.subscripted .sList .listC [.cls (.ocls .intC) none]) ∧
    sub (.subscripted .sList .listC [.cls (.ocls .intC) none])
        (.subscripted .sList .listC [.cls (.ocls .intC) none]) = true :=
  ⟨rfl, claim_C3_reflexivity (.rsub .aList .listC [.rcls .intC]) _ rfl⟩

/-- C5: Union subhinting: a union is a subhint of another union exactly
when every branch of it is a subhint of some branch of the other; against
a non-union it is a subhint exactly of the raw `typing.Any` hint; and
union membership is order-independent, as in
`wrap(Union[int, str]) <= wrap(Union[str, int, float])`. -/
theorem claim_C5_union_subhint :
    (∀ args oargs : List TypeHint,
      sub (.union args) (.union oargs) =
        (args.all fun b => oargs.any fun ob => sub b ob)) ∧
    (∀ (args : List TypeHint) (o : TypeHint), isUnionB o = false →
      (sub (.union args) o = true ↔ isAnyDesc o = true)) ∧
    (wrap (.runion (.rcls .intC) (.rcls .strC) []) =
      .ok (.union [.cls (.ocls .intC) none, .cls (.ocls .strC) none]) ∧
     wrap (.runion (.rcls .strC) (.rcls .intC) [.rcls .floatC]) =
      .ok (.union [.cls (.ocls .strC) none, .cls (.ocls .intC) none,
        .cls (.ocls .floatC) none]) ∧
     sub (.union [.cls (.ocls .intC) none, .cls (.ocls .strC) none])
        (.union [.cls (.ocls .strC) none, .cls (.ocls .intC) none,
          .cls (.ocls .floatC) none]) = true) := by
  refine ⟨sub_union_union, fun args o h => ?_, rfl, rfl, by decide⟩
  rw [sub_union_not_union args o h]

theorem claim_C5_witness :
    isUnionB (.cls .oany (some .sAny)) = false ∧
    (sub (.union [.cls (.ocls .intC) none]) (.cls .oany (some .sAny)) =
        true ↔
      isAnyDesc (.cls .oany (some .sAny)) = true) :=
  ⟨rfl, claim_C5_union_subhint.2.1 [.cls (.ocls .intC) none]
    (.cls .oany (some .sAny)) rfl⟩

/-- C6: Construction is idempotent and identity-preserving: wrapping a
value that is already a descriptor returns that descriptor unchanged, so
`wrap(wrap(x))` is `wrap(x)`. -/
theorem claim_C6_wrap_idempotent :
    (∀ (x : WrapArg) (d : TypeHint),
      wrapFull x = .ok d → wrapFull (.wrapped d) = .ok d) ∧
    (∀ d : TypeHint, wrapFull (.wrapped d) = .ok d) :=
  ⟨fun _ _ _ => rfl, fun _ => rfl⟩

theorem claim_C6_witness :
    wrapFull (.raw (.rcls .intC)) = .ok (.cls (.ocls .intC) none) ∧
    wrapFull (.wrapped (.cls (.ocls .intC) none)) =
      .ok (.cls (.ocls .intC) none) :=
  ⟨rfl, claim_C6_wrap_idempotent.1 (.raw (.rcls .intC))
    (.cls (.ocls .intC) none) rfl⟩

/-- C7: Literal subhinting: against another literal, value-set membership
(not ordering); against a just-an-origin hint, every value must be a
runtime instance of its origin; otherwise every value must have its own
type wrap to a subhint of the other hint; and
`Literal[1, 2] <= Literal[1, 2, 3]` holds while the converse fails. -/
theorem claim_C7_literal_subhint :
    (∀ vals ovals : List Val,
      sub (.lit vals) (.lit ovals) =
        (vals.all fun v => ovals.any fun w => valEq v w)) ∧
    (∀ (vals : List Val) (o : TypeHint), isLitB o = false →
      isJustOrigin o = true →
      sub (.lit vals) o = (vals.all fun v => isinst v (originOf o))) ∧
    (∀ (vals : List Val) (o : TypeHint), isLitB o = false →
      isJustOrigin o = false →
      sub (.lit vals) o =
        (vals.all fun v => sub (.cls (.ocls (typeOfVal v)) none) o)) ∧
    sub (.lit [.vint 1, .vint 2]) (.lit [.vint 1, .vint 2, .vint 3]) =
      true ∧
    sub (.lit [.vint 1, .vint 2, .vint 3]) (.lit [.vint 1, .vint 2]) =
      false := by
  refine ⟨sub_lit_lit, fun vals o h1 h2 => ?_, fun vals o h1 h2 => ?_,
    by decide, by decide⟩
  · rw [sub_lit_not_lit vals o h1, if_pos h2]
  · rw [sub_lit_not_lit vals o h1, if_neg (by simp [h2])]
    exact (list_all_congr fun v _ =>
      (sub_cls_any_branches (.ocls (typeOfVal v)) none o).symm).symm

theorem claim_C7_witness :
    (isLitB (.cls (.ocls .intC) none) = false ∧
     isJustOrigin (.cls (.ocls .intC) none) = true ∧
     sub (.lit [.vint 1]) (.cls (.ocls .intC) none) =
       ([Val.vint 1].all fun v =>
         isinst v (originOf (.cls (.ocls .intC) none)))) ∧
    (isLitB (.tup [.cls (.ocls .intC) none] false false) = false ∧
     isJustOrigin (.tup [.cls (.ocls .intC) none] false false) = false ∧
     sub (.lit [.vint 1]) (.tup [.cls (.ocls .intC) none] false false) =
       ([Val.vint 1].all fun v =>
         sub (.cls (.ocls (typeOfVal v)) none)
           (.tup [.cls (.ocls .intC) none] false false))) :=
  ⟨⟨rfl, rfl, claim_C7_literal_subhint.2.1 [.vint 1]
      (.cls (.ocls .intC) none) rfl rfl⟩,
   ⟨rfl, by decide, claim_C7_literal_subhint.2.2.1 [.vint 1]
      (.tup [.cls (.ocls .intC) none] false false) rfl (by decide)⟩⟩

/-- C8: Unsupported-input failure: a raw value whose sign has no
registered variant and that is neither a bare class nor a typing-module
attribute makes `wrap` fail with the `BeartypeDoorNonpepException`
(`nonpep`) error instead of constructing a descriptor. -/
theorem claim_C8_unsupported_error (r : RawHint)
    (h1 : (signOfRaw r).bind HINT_SIGN_TO_TYPEHINT = none)
    (h2 : isTypeRaw r = false) (h3 : isTypingModuleRaw r = false) :
    wrap r = .error .nonpep := by
  cases r with
  | rcls c => simp [isTypeRaw] at h2
  | rany => simp [isTypingModuleRaw] at h3
  | rellipsis => rfl
  | runit => rfl
  | runsup k => rfl
  | rsub a c args =>
    cases a <;>
      simp [signOfRaw, ArgsSign.toSign, HINT_SIGN_TO_TYPEHINT,
        Option.bind] at h1
  | rtup args =>
    simp [signOfRaw, HINT_SIGN_TO_TYPEHINT, Option.bind] at h1
  | rcallEll ret =>
    simp [signOfRaw, HINT_SIGN_TO_TYPEHINT, Option.bind] at h1
  | rcallList ps ret =>
    simp [signOfRaw, HINT_SIGN_TO_TYPEHINT, Option.bind] at h1
  | rlit v vs =>
    simp [signOfRaw, HINT_SIGN_TO_TYPEHINT, Option.bind] at h1
  | rann m md mds =>
    simp [signOfRaw, HINT_SIGN_TO_TYPEHINT, Option.bind] at h1
  | runion a b rest =>
    simp [signOfRaw, HINT_SIGN_TO_TYPEHINT, Option.bind] at h1

theorem claim_C8_witness :
    ((signOfRaw (.runsup 0)).bind HINT_SIGN_TO_TYPEHINT = none ∧
     isTypeRaw (.runsup 0) = false ∧
     isTypingModuleRaw (.runsup 0) = false) ∧
    wrap (.runsup 0) = .error .nonpep :=
  ⟨⟨rfl, rfl, rfl⟩, claim_C8_unsupported_error (.runsup 0) rfl rfl rfl⟩

/-- C9: Metadata-comparison exception containment: when the element-wise
comparison of two annotated descriptors' metadata sequences raises, the
exception is swallowed locally, the comparison counts as "not equal", and
`is_subhint` returns an ordinary `false` instead of propagating the
exception. -/
theorem claim_C9_metadata_exception_contained (m : TypeHint)
    (md : List MetaObj) (bm : TypeHint) (bmd : List MetaObj) (e : Unit)
    (herr : listMetaEq md bmd = .error e) :
    sub (.annotated m md) (.annotated bm bmd) = false ∧
    isSubhintOp (.annotated m md) (.hintOp (.annotated bm bmd)) =
      .ok false := by
  have hsub : sub (.annotated m md) (.annotated bm bmd) = false := by
    rw [sub_single (.annotated m md) (.annotated bm bmd) rfl rfl rfl,
      leBranch_ann_ann]
    split
    · rfl
    · rw [herr]
      rfl
  refine ⟨hsub, ?_⟩
  show Except.ok (sub (.annotated m md) (.annotated bm bmd)) = .ok false
  rw [hsub]

theorem claim_C9_witness :
    listMetaEq [MetaObj.mraising 0] [MetaObj.mraising 1] = .error () ∧
    sub (.annotated (.cls (.ocls .intC) none) [.mraising 0])
        (.annotated (.cls (.ocls .intC) none) [.mraising 1]) = false ∧
    isSubhintOp (.annotated (.cls (.ocls .intC) none) [.mraising 0])
        (.hintOp (.annotated (.cls (.ocls .intC) none) [.mraising 1])) =
      .ok false :=
  ⟨rfl,
   (claim_C9_metadata_exception_contained (.cls (.ocls .intC) none)
     [.mraising 0] (.cls (.ocls .intC) none) [.mraising 1] () rfl).1,
   (claim_C9_metadata_exception_contained (.cls (.ocls .intC) none)
     [.mraising 0] (.cls (.ocls .intC) none) [.mraising 1] () rfl).2⟩

/-- C10: Non-descriptor operands at the comparison interface: `==`
returns `false` and `!=` returns `true` without raising, the ordering
operators return `NotImplemented`, and only `is_subhint` /
`is_superhint` raise the `NotADescriptor` error. -/
theorem claim_C10_non_descriptor_operands (d : TypeHint) (k : Nat) :
    eqOp d (.nonHint k) = false ∧
    neOp d (.nonHint k) = true ∧
    ltOp d (.nonHint k) = .notImplemented ∧
    leOp d (.nonHint k) = .notImplemented ∧
    gtOp d (.nonHint k) = .notImplemented ∧
    geOp d (.nonHint k) = .notImplemented ∧
    isSubhintOp d (.nonHint k) = .error .notADescriptor ∧
    isSuperhintOp d (.nonHint k) = .error .notADescriptor :=
  ⟨rfl, rfl, rfl, rfl, rfl, rfl, rfl, rfl⟩


/-- True iff the descriptor is an empty-tuple variant
(`is_empty_tuple`). -/
def isEmptyTupleB : TypeHint → Bool
  | .tup _ _ e => e
  | _ => false

/-- C2 counterexample: two of the claimed tuple rules fail on the code.
First, the empty-tuple descriptor is a subhint of a non-empty variadic
branch (`Tuple[()] <= Tuple[int, ...]` holds), although the claim allows
an empty-tuple self only below empty-tuple branches.  Second,
`Tuple[int, ...] <= Tuple[object, ...]` is false in the code although
`int <= object` holds, because the code compares the element descriptors
in the reverse direction. -/
theorem claim_C2_counterexample :
    wrap (.rtup [.runit]) = .ok (.tup [] false true) ∧
    wrap (.rtup [.rcls .intC, .rellipsis]) =
      .ok (.tup [.cls (.ocls .intC) none] true false) ∧
    isJustOrigin (.tup [.cls (.ocls .intC) none] true false) = false ∧
    isEmptyTupleB (.tup [.cls (.ocls .intC) none] true false) = false ∧
    sub (.tup [] false true)
        (.tup [.cls (.ocls .intC) none] true false) = true ∧
    wrap (.rtup [.rcls .obj, .rellipsis]) =
      .ok (.tup [.cls (.ocls .obj) none] true false) ∧
    isJustOrigin (.tup [.cls (.ocls .obj) none] true false) = false ∧
    sub (.cls (.ocls .intC) none) (.cls (.ocls .obj) none) = true ∧
    sub (.tup [.cls (.ocls .intC) none] true false)
        (.tup [.cls (.ocls .obj) none] true false) = false := by
  refine ⟨rfl, rfl, ?_, rfl, ?_, rfl, ?_, ?_, ?_⟩ <;> decide

/-- C2 (amended): tuple subhinting, for a branch that is not origin-only.
An origin-only self is never a subhint; against an empty-tuple branch,
exactly the empty-tuple self is a subhint; variadic self below variadic
branch compares the branch element against the self element (the reverse
of the claimed direction); fixed self below variadic branch requires
every element to subhint the branch element (so the empty tuple
qualifies); variadic self is never below a fixed branch; and fixed-fixed
requires equal lengths with pairwise subhints. -/
theorem claim_C2_amended_tuple_subhint :
    ∀ (sargs : List TypeHint) (sv se : Bool) (bargs : List TypeHint)
      (bv be : Bool),
      isJustOrigin (.tup bargs bv be) = false →
      ((isJustOrigin (.tup sargs sv se) = true →
         sub (.tup sargs sv se) (.tup bargs bv be) = false) ∧
       (isJustOrigin (.tup sargs sv se) = false →
         ((be = true → sub (.tup sargs sv se) (.tup bargs bv be) = se) ∧
          (be = false → bv = true →
            ∀ bt brest, bargs = bt :: brest →
              ((sv = true → ∀ st srest, sargs = st :: srest →
                 sub (.tup sargs sv se) (.tup bargs bv be) = sub bt st) ∧
               (sv = false →
                 sub (.tup sargs sv se) (.tup bargs bv be) =
                   (sargs.all fun c2 => sub c2 bt)))) ∧
          (be = false → bv = false →
            ((sv = true →
               sub (.tup sargs sv se) (.tup bargs bv be) = false) ∧
             (sv = false →
               sub (.tup sargs sv se) (.tup bargs bv be) =
                 (sargs.length == bargs.length &&
                  (sargs.zip bargs).all fun p => sub p.1 p.2))))))) := by
  intro sargs sv se bargs bv be hbr
  constructor
  · intro hself
    rw [sub_single (.tup sargs sv se) (.tup bargs bv be) rfl rfl rfl,
      leBranch_tup_tup]
    simp [hbr, hself]
  · intro hself
    refine ⟨?_, ?_, ?_⟩
    · intro hbe
      subst hbe
      rw [sub_single (.tup sargs sv se) (.tup bargs bv true) rfl rfl rfl,
        leBranch_tup_tup]
      simp [hbr, hself]
    · intro hbe hbv bt brest hbargs
      subst hbe
      subst hbv
      subst hbargs
      constructor
      · intro hsv st srest hsargs
        subst hsv
        subst hsargs
        rw [sub_single (.tup (st :: srest) true se)
          (.tup (bt :: brest) true false) rfl rfl rfl, leBranch_tup_tup]
        simp [hbr, hself]
      · intro hsv
        subst hsv
        rw [sub_single (.tup sargs false se) (.tup (bt :: brest) true false)
          rfl rfl rfl, leBranch_tup_tup]
        simp [hbr, hself]
    · intro hbe hbv
      subst hbe
      subst hbv
      constructor
      · intro hsv
        subst hsv
        rw [sub_single (.tup sargs true se) (.tup bargs false false)
          rfl rfl rfl, leBranch_tup_tup]
        simp [hbr, hself]
      · intro hsv
        subst hsv
        rw [sub_single (.tup sargs false se) (.tup bargs false false)
          rfl rfl rfl, leBranch_tup_tup]
        rcases hlen : sargs.length == bargs.length with _ | _
        · simp [hbr, hself, bne, hlen]
        · simp [hbr, hself, bne, hlen]

theorem claim_C2_amended_witness :
    (isJustOrigin (.tup [.cls (.ocls .intC) none] true false) = false ∧
     isJustOrigin
       (.tup [.cls (.ocls .intC) none, .cls (.ocls .intC) none]
         false false) = false) ∧
    sub (.tup [.cls (.ocls .intC) none, .cls (.ocls .intC) none]
          false false)
        (.tup [.cls (.ocls .intC) none] true false) =
      ([TypeHint.cls (.ocls .intC) none,
        TypeHint.cls (.ocls .intC) none].all fun c2 =>
          sub c2 (.cls (.ocls .intC) none)) :=
  ⟨⟨by decide, by decide⟩,
   ((claim_C2_amended_tuple_subhint
      [.cls (.ocls .intC) none, .cls (.ocls .intC) none] false false
      [.cls (.ocls .intC) none] true false (by decide)).2
      (by decide)).2.1 rfl rfl (.cls (.ocls .intC) none) [] rfl |>.2 rfl⟩

/-- C4 counterexample: the claimed contravariance condition fails on the
code.  `Callable[[int], int] <= Callable[[str], int]` holds in the code
even though the `int` parameter descriptor of self is not a superhint of
the `str` parameter descriptor of the branch (the code only rejects a
parameter pair when the self parameter is a *strict* superhint of the
branch parameter). -/
theorem claim_C4_counterexample :
    wrap (.rcallList [.rcls .intC] (.rcls .intC)) =
      .ok (.callable [.cls (.ocls .intC) none] (.cls (.ocls .intC) none)
        false) ∧
    wrap (.rcallList [.rcls .strC] (.rcls .intC)) =
      .ok (.callable [.cls (.ocls .strC) none] (.cls (.ocls .intC) none)
        false) ∧
    isJustOrigin (.callable [.cls (.ocls .strC) none]
      (.cls (.ocls .intC) none) false) = false ∧
    sub (.callable [.cls (.ocls .intC) none] (.cls (.ocls .intC) none)
          false)
        (.callable [.cls (.ocls .strC) none] (.cls (.ocls .intC) none)
          false) = true ∧
    sub (.cls (.ocls .strC) none) (.cls (.ocls .intC) none) = false := by
  refine ⟨rfl, rfl, ?_, ?_, ?_⟩ <;> decide

/-- C4 (amended): callable subhinting, for a branch that is not
origin-only.  When the code reports `self <= branch` and the branch does
not accept arbitrary arguments, then self does not accept arbitrary
arguments, the parameter counts agree, and no parameter descriptor of
self is a *strict superhint* of the corresponding branch parameter (the
code checks `self_arg > branch_arg`, not the claimed superhint
condition); when the branch does not return `Any`, self does not return
`Any` and self's return descriptor is a subhint of the branch's.  When
the branch accepts arbitrary arguments the argument check is skipped:
the result depends only on the return descriptors. -/
theorem claim_C4_amended_callable_subhint :
    ∀ (ps : List TypeHint) (r : TypeHint) (ta : Bool)
      (bps : List TypeHint) (brret : TypeHint) (bta : Bool),
      isJustOrigin (.callable bps brret bta) = false →
      ((sub (.callable ps r ta) (.callable bps brret bta) = true →
         ((bta = false →
            ta = false ∧ ps.length = bps.length ∧
            ∀ p ∈ ps.zip bps, (sub p.2 p.1 && !teq p.1 p.2) = false) ∧
          (isAnyDesc brret = false →
            isAnyDesc r = false ∧ sub r brret = true))) ∧
       (bta = true →
         sub (.callable ps r ta) (.callable bps brret bta) =
           (if isAnyDesc r = true then false else sub r brret))) := by
  intro ps r ta bps brret bta hbr
  have hsub :
      sub (.callable ps r ta) (.callable bps brret bta) =
        (if !bta && (ta || ps.length != bps.length ||
            ((ps.zip bps).any fun p => sub p.2 p.1 && !teq p.1 p.2))
          then false
         else if !isAnyDesc brret then
           (if isAnyDesc r then false else sub r brret)
         else true) := by
    rw [sub_single (.callable ps r ta) (.callable bps brret bta)
      rfl rfl rfl, leBranch_call_call]
    simp [hbr, issub_refl]
  constructor
  · intro htrue
    rw [hsub] at htrue
    constructor
    · intro hbta
      subst hbta
      rcases hcond : (ta || ps.length != bps.length ||
          ((ps.zip bps).any fun p => sub p.2 p.1 && !teq p.1 p.2)) with _ | _
      · simp only [Bool.or_eq_false_iff] at hcond
        obtain ⟨⟨hta, hlen⟩, hany⟩ := hcond
        refine ⟨hta, by simpa using hlen, fun p hp => ?_⟩
        exact Bool.eq_false_iff.mpr (List.any_eq_false.mp hany p hp)
      · rw [hcond] at htrue
        simp at htrue
    · intro hbrret
      rcases hcond2 : (!bta && (ta || ps.length != bps.length ||
          ((ps.zip bps).any fun p => sub p.2 p.1 && !teq p.1 p.2))) with _ | _
      · rw [hcond2] at htrue
        simp only [Bool.false_eq_true, if_false, hbrret, Bool.not_false,
          if_true] at htrue
        rcases hany : isAnyDesc r with _ | _
        · rw [hany] at htrue
          simp at htrue
          exact ⟨rfl, htrue⟩
        · rw [hany] at htrue
          simp at htrue
      · rw [hcond2] at htrue
        simp at htrue
  · intro hbta
    subst hbta
    have hbrret : isAnyDesc brret = false := by
      simpa [isJustOrigin] using hbr
    rw [hsub]
    simp [hbrret]

theorem claim_C4_amended_witness :
    (isJustOrigin (.callable [.cls (.ocls .strC) none]
       (.cls (.ocls .intC) none) false) = false ∧
     sub (.callable [.cls (.ocls .intC) none] (.cls (.ocls .intC) none)
           false)
         (.callable [.cls (.ocls .strC) none] (.cls (.ocls .intC) none)
           false) = true ∧
     isAnyDesc (.cls (.ocls .intC) none : TypeHint) = false) ∧
    (isAnyDesc (.cls (.ocls .intC) none : TypeHint) = false ∧
     sub (.cls (.ocls .intC) none) (.cls (.ocls .intC) none) = true) :=
  ⟨⟨by decide, by decide, by decide⟩,
   ((claim_C4_amended_callable_subhint [.cls (.ocls .intC) none]
      (.cls (.ocls .intC) none) false [.cls (.ocls .strC) none]
      (.cls (.ocls .intC) none) false (by decide)).1 (by decide)).2 rfl⟩

end Door
